import Mathlib

/-!
Verification of the circuit-to-tensor gate-rewriting pipeline.

This file gives a shallow embedding, in Lean, of the core of the
`circuit-to-tensor` compiler (files `circuit.rs`, `decompose.rs`,
`hadamard.rs`, `extract.rs`) and proves properties of the embedded
functions.  Qubits are plain naturals (the Rust `Qubit(usize)`), phases
are naturals taken mod 8 (the Rust `Phase(usize)`), and circuits are
lists of gates.  Imperative loops are rendered as folds or structural
recursions over lists, with fuel where the Rust loop's termination is by
a decreasing length that is not structural.
-/

set_option maxRecDepth 10000

namespace C2T

/-- The gate vocabulary of `circuit.rs` (`enum Gate`). -/
inductive Gate where
  | X (q : ℕ)
  | CNOT (a b : ℕ)
  | Phase (p : ℕ) (q : ℕ)
  | CZ (a b : ℕ)
  | CCZ (a b c : ℕ)
  | CS (a b : ℕ)
  | SWAP (a b : ℕ)
  | H (q : ℕ)
deriving DecidableEq, Repr

/-- Phase negation: `impl Neg for Phase`, `(8 - p) % 8`. -/
def phase_neg (p : ℕ) : ℕ := (8 - p) % 8

/-- Phase subtraction: `impl Sub for Phase`, `(p + 8 - q) % 8`. -/
def phase_sub (p q : ℕ) : ℕ := (p + 8 - q) % 8

/-- `Phase::is_clifford`: a phase is Clifford iff it is even. -/
def phase_is_clifford (p : ℕ) : Bool := p % 2 == 0

/-- `Gate::is_clifford` from `circuit.rs`. -/
def Gate.is_clifford : Gate → Bool
  | .X _ => true
  | .CNOT _ _ => true
  | .Phase p _ => phase_is_clifford p
  | .CZ _ _ => true
  | .CS _ _ => false
  | .CCZ _ _ _ => false
  | .SWAP _ _ => true
  | .H _ => true

/-- `Gate::qubits`: the (possibly repeated) list of 3 touched qubit indices. -/
def Gate.qubit_list : Gate → List ℕ
  | .X q => [q, q, q]
  | .CNOT a b => [a, b, b]
  | .Phase _ q => [q, q, q]
  | .CZ a b => [a, b, b]
  | .CS a b => [a, b, b]
  | .CCZ a b c => [a, b, c]
  | .SWAP a b => [a, b, b]
  | .H q => [q, q, q]

/-- `Gate::overlaps`: the double loop over both qubit lists. -/
def Gate.overlaps (g h : Gate) : Bool :=
  g.qubit_list.any fun a => h.qubit_list.any fun b => a == b

/-- `struct Circuit { gates: Vec<Gate> }`. -/
structure Circuit where
  gates : List Gate
deriving DecidableEq, Repr

/-- `Circuit::qubits`: 0 for the empty circuit, otherwise one more than the
largest touched qubit index. -/
def Circuit.qubits (c : Circuit) : ℕ :=
  if c.gates.isEmpty then 0
  else (c.gates.foldl (fun n g => max n (g.qubit_list.foldl max 0)) 0) + 1

/-- `Circuit::count_hadamards` from `hadamard.rs`. -/
def Circuit.count_hadamards (c : Circuit) : ℕ :=
  (c.gates.filter fun g => match g with | .H _ => true | _ => false).length

/-! ### The CNOT+Phase canonicalizer (`Circuit::to_cnot_phase`, decompose.rs)

The first pass of `to_cnot_phase` walks the gate vector from the last index
down to 0 and replaces each CZ/CS/CCZ/SWAP gate, in place, by its fixed
CNOT+Phase template (inserting the extra gates right after the original
position).  Since iteration is by descending original index and inserted
gates are never revisited, the pass expands each original gate exactly once
in place; we embed it as the per-gate expansion applied across the list. -/

/-- The gate-replacement templates of `to_cnot_phase` (decompose.rs:64-102).
Gates other than CZ/CS/CCZ/SWAP are left as they are. -/
def cnot_phase_decomp : Gate → List Gate
  | .CZ a b =>
      [.Phase (phase_neg 2) a, .Phase (phase_neg 2) b, .CNOT a b,
       .Phase 2 b, .CNOT a b]
  | .CS a b =>
      [.CNOT a b, .Phase (phase_neg 1) b, .CNOT a b, .Phase 1 a, .Phase 1 b]
  | .CCZ a b c =>
      [.CNOT b c, .Phase (phase_neg 1) c, .CNOT a c, .Phase 1 c,
       .CNOT b c, .Phase (phase_neg 1) c, .CNOT a c, .Phase 1 c,
       .Phase 1 b, .CNOT a b, .Phase 1 a, .Phase (phase_neg 1) b, .CNOT a b]
  | .SWAP a b => [.CNOT a b, .CNOT b a, .CNOT a b]
  | g => [g]

/-- The whole replacement pass: each original gate expanded in place. -/
def decomp_pass (gates : List Gate) : List Gate :=
  (gates.map cnot_phase_decomp).flatten

/-- The toggling of the tracked-X set at a CNOT (decompose.rs:114-116):
if the control is tracked, the target's membership is toggled. -/
def cnot_toggle (s : Finset ℕ) (a b : ℕ) : Finset ℕ :=
  if a ∈ s then (if b ∈ s then s.erase b else insert b s) else s

/-- Propagating a tracked-X set rightward through a gate list
(the inner `for j in i..` loop of decompose.rs:112-122): CNOTs toggle the
set, phases on tracked qubits are negated, other gates are untouched.
Returns the rewritten list and the final set. -/
def propagate_x (s : Finset ℕ) : List Gate → List Gate × Finset ℕ
  | [] => ([], s)
  | .CNOT a b :: rest =>
      let r := propagate_x (cnot_toggle s a b) rest
      (.CNOT a b :: r.1, r.2)
  | .Phase p q :: rest =>
      let r := propagate_x s rest
      ((if q ∈ s then Gate.Phase (phase_neg p) q else .Phase p q) :: r.1, r.2)
  | g :: rest =>
      let r := propagate_x s rest
      (g :: r.1, r.2)

/-- The X-elimination pass of `to_cnot_phase` (decompose.rs:104-128).
The Rust loop runs from the last index down to 0; when it meets an X it
removes it and propagates a singleton set through the (already processed)
suffix, merging the leftover set into `total_x` by toggling (symmetric
difference).  Processing the suffix first is exactly this recursion. -/
def move_xs : List Gate → List Gate × Finset ℕ
  | [] => ([], ∅)
  | .X q :: rest =>
      let r := move_xs rest
      let p := propagate_x {q} r.1
      (p.1, symmDiff p.2 r.2)
  | g :: rest =>
      let r := move_xs rest
      (g :: r.1, r.2)

/-- `Circuit::to_cnot_phase` (decompose.rs:62-136): the replacement pass
followed by X elimination.  Returns the rewritten circuit and the correction
circuit of trailing X gates.  The Rust `for q in total_x` iterates a HashSet
in unspecified order; we fix the ascending order as a canonical choice. -/
def Circuit.to_cnot_phase (c : Circuit) : Circuit × Circuit :=
  let d := decomp_pass c.gates
  let m := move_xs d
  (⟨m.1⟩, ⟨(m.2.sort (· ≤ ·)).map Gate.X⟩)

/-! ### Clifford extraction and partitioning (`decompose.rs:10-52`) -/

/-- One scan of `Circuit::pull_gates`: find the first gate satisfying the
predicate that overlaps no earlier gate of the current sequence.  `pre` is
the reversed prefix already scanned; on success the gate and the sequence
with it removed are returned. -/
def find_pull (pred : Gate → Bool) : List Gate → List Gate → Option (Gate × List Gate)
  | _, [] => none
  | pre, g :: rest =>
      if pred g && pre.all (fun h => !(g.overlaps h)) then some (g, pre.reverse ++ rest)
      else find_pull pred (g :: pre) rest

/-- The `Circuit::pull_gates` loop: repeat the scan until no gate qualifies.
Each successful scan removes one gate, so a fuel of the list length is
enough; returns (pulled-front circuit, remaining gates). -/
def pull_gates_fuel (pred : Gate → Bool) : ℕ → List Gate → List Gate × List Gate
  | 0, gates => ([], gates)
  | fuel+1, gates =>
    match find_pull pred [] gates with
    | none => ([], gates)
    | some gr =>
      let r := pull_gates_fuel pred fuel gr.2
      (gr.1 :: r.1, r.2)

/-- `Circuit::pull_gates` with the canonical fuel. -/
def Circuit.pull_gates (c : Circuit) (pred : Gate → Bool) : Circuit × Circuit :=
  let r := pull_gates_fuel pred c.gates.length c.gates
  (⟨r.1⟩, ⟨r.2⟩)

/-- `Circuit::extract_cliffords`: pull Cliffords from the front, then from
the back by reversing.  Returns (front, back, remaining). -/
def Circuit.extract_cliffords (c : Circuit) : Circuit × Circuit × Circuit :=
  let f := c.pull_gates Gate.is_clifford
  let b := Circuit.pull_gates ⟨f.2.gates.reverse⟩ Gate.is_clifford
  (f.1, ⟨b.1.gates.reverse⟩, ⟨b.2.gates.reverse⟩)

/-- `struct PartitionedCircuit`. -/
structure PartitionedCircuit where
  front : Circuit
  back : Circuit
  blocks : List Circuit
deriving DecidableEq, Repr

/-- The block-splitting loop of `Circuit::partition`: alternately pull a
non-H block and a Clifford block until the circuit is empty.  Every full
iteration removes at least one gate, so length + 1 fuel is enough. -/
def partition_fuel : ℕ → List Gate → List Circuit
  | 0, _ => []
  | fuel+1, gates =>
    if gates = [] then []
    else
      let f := pull_gates_fuel (fun g => !(match g with | .H _ => true | _ => false))
        gates.length gates
      if f.2 = [] then [⟨f.1⟩]
      else
        let cl := pull_gates_fuel Gate.is_clifford f.2.length f.2
        ⟨f.1⟩ :: ⟨cl.1⟩ :: partition_fuel fuel cl.2

/-- `Circuit::partition`. -/
def Circuit.partition (c : Circuit) : PartitionedCircuit :=
  let e := c.extract_cliffords
  { front := e.1, back := e.2.1,
    blocks := partition_fuel (e.2.2.gates.length + 1) e.2.2.gates }

/-- `PartitionedCircuit::merge`: front, then every block in order, then back. -/
def PartitionedCircuit.merge (pc : PartitionedCircuit) : Circuit :=
  ⟨pc.front.gates ++ (pc.blocks.map Circuit.gates).flatten ++ pc.back.gates⟩

/-! ### Synthesis-matrix extraction (`Circuit::extract_gadgets`, decompose.rs:141-209)

Boolean matrices are lists of rows or of columns of `Bool`; the parity
state maintained while scanning a block is the list of its n rows. -/

/-- The n-by-n boolean identity matrix, as a list of rows. -/
def id_matrix (n : ℕ) : List (List Bool) :=
  (List.range n).map fun i => (List.range n).map fun j => i == j

/-- The CNOT row operation `row b ^= row a`. -/
def cnot_update (m : List (List Bool)) (a b : ℕ) : List (List Bool) :=
  m.set b (List.zipWith Bool.xor (m.getD b []) (m.getD a []))

/-- The scan of decompose.rs:151-162: CNOTs update the row state, phase
gates record (phase, current row of their qubit), other gates are ignored.
Returns the final state and the recorded gadget list in gate order. -/
def gadget_scan : List Gate → List (List Bool) → List (List Bool) × List (ℕ × List Bool)
  | [], m => (m, [])
  | .CNOT a b :: rest, m => gadget_scan rest (cnot_update m a b)
  | .Phase p q :: rest, m =>
      let r := gadget_scan rest m
      (r.1, (p, m.getD q []) :: r.2)
  | _ :: rest, m => gadget_scan rest m

/-- The nested `synth_gadget` helper of decompose.rs:164-180: CNOT all other
set rows onto the first set row, apply the phase there, undo the CNOTs (the
descending loop emits the ascending CNOT list reversed). -/
def synth_gadget_plain (phase : ℕ) (parity : List Bool) : List Gate :=
  if phase = 0 then []
  else
    match parity.findIdx? (fun e => e) with
    | none => []
    | some q =>
      let asc := (List.range parity.length).filterMap fun i =>
        if i ≠ q ∧ parity.getD i false then some (Gate.CNOT i q) else none
      asc ++ [Gate.Phase phase q] ++ asc.reverse

/-- The gadget list of a block: `gadget_scan` from the identity state. -/
def eg_gadgets (c : Circuit) : List (ℕ × List Bool) :=
  (gadget_scan c.gates (id_matrix c.qubits)).2

/-- The synthesis-matrix columns before row pruning: the parities of the
non-Clifford gadgets, in gate order (decompose.rs:185-193). -/
def eg_columns (c : Circuit) : List (List Bool) :=
  (eg_gadgets c).filterMap fun g =>
    if phase_is_clifford g.1 then none else some g.2

/-- The active-qubit map: the indices of the non-zero rows of the stacked
column matrix, in ascending order (decompose.rs:198-206 collects them in
descending order and reverses). -/
def eg_map (c : Circuit) : List ℕ :=
  (List.range c.qubits).filter fun i => (eg_columns c).any fun col => col.getD i false

/-- The pruned synthesis matrix, as a list of columns restricted to the
surviving rows. -/
def eg_matrix (c : Circuit) : List (List Bool) :=
  (eg_columns c).map fun col => (eg_map c).map fun i => col.getD i false

/-- The Clifford output of `Circuit::extract_gadgets`: the Clifford part of
every gadget (for a non-Clifford gadget, its phase minus T), followed by the
block's CNOT gates (its final linear map). -/
def eg_cliffords (c : Circuit) : Circuit :=
  ⟨((eg_gadgets c).map fun g =>
      if phase_is_clifford g.1 then synth_gadget_plain g.1 g.2
      else synth_gadget_plain (phase_sub g.1 1) g.2).flatten
    ++ c.gates.filter (fun g => match g with | .CNOT _ _ => true | _ => false)⟩

/-- The diagonalized block written back into `self.gates`: one T gadget per
non-Clifford recorded gadget. -/
def eg_diagonal (c : Circuit) : Circuit :=
  ⟨((eg_gadgets c).map fun g =>
      if phase_is_clifford g.1 then [] else synth_gadget_plain 1 g.2).flatten⟩

/-- `Circuit::extract_gadgets`: (active-qubit map, pruned matrix, Cliffords). -/
def Circuit.extract_gadgets (c : Circuit) : List ℕ × List (List Bool) × Circuit :=
  (eg_map c, eg_matrix c, eg_cliffords c)

/-- Modelled from the spec, for comparison with `eg_columns`: "column j is
the GF(2) parity (linear function of input qubits) that the j-th T gate acts
on at the time it fires", the parity state being "the identity matrix
updated by row b ← row b XOR row a for each preceding CNOT(a,b)". -/
def spec_columns_from (m : List (List Bool)) : List Gate → List (List Bool)
  | [] => []
  | .CNOT a b :: rest => spec_columns_from (cnot_update m a b) rest
  | .Phase p q :: rest =>
      (if phase_is_clifford p then [] else [m.getD q []]) ++ spec_columns_from m rest
  | _ :: rest => spec_columns_from m rest

/-- Modelled from the spec: the columns of the synthesis matrix of an H-free
CNOT+Phase block, one per non-Clifford phase gate in gate order. -/
def spec_columns (gates : List Gate) (n : ℕ) : List (List Bool) :=
  spec_columns_from (id_matrix n) gates

/-! ### Gadget pattern synthesis (`extract.rs:99-286`) -/

/-- Pointwise XOR of two columns. -/
def xor_col (a b : List Bool) : List Bool := List.zipWith Bool.xor a b

/-- `Circuit::synth_gadget` of extract.rs:234-254: the single-column
CNOT-fan / T / CNOT-fan fallback, through the qubit map.  An all-false
column emits nothing. -/
def synth_gadget (col : List Bool) (map : List ℕ) : List Gate :=
  match col.findIdx? (fun v => v) with
  | none => []
  | some t =>
    let asc := (List.range col.length).filterMap fun i =>
      if i ≠ t ∧ col.getD i false then some (Gate.CNOT (map.getD i 0) (map.getD t 0)) else none
    asc ++ [Gate.Phase 1 (map.getD t 0)] ++ asc.reverse

/-- `Circuit::try_synth_ccz_gadget` (extract.rs:99-181) on a 7-column
window.  Returns the emitted gate list, or `none` when the pattern does not
match (the `unwrap`s of the Rust code, which cannot fail once the pattern
checks passed, are also modelled as `none`). -/
def try_synth_ccz_gadget (cols : List (List Bool)) (map : List ℕ) : Option (List Gate) :=
  let a := cols.getD 0 []
  let b := cols.getD 1 []
  let c := cols.getD 2 []
  let rest := [cols.getD 3 [], cols.getD 4 [], cols.getD 5 [], cols.getD 6 []]
  if a = b ∨ a = c ∨ b = c ∨ xor_col a b = c then none
  else if ¬ (xor_col a b ∈ rest ∧ xor_col a c ∈ rest ∧ xor_col b c ∈ rest ∧
             xor_col (xor_col a b) c ∈ rest) then none
  else
    match a.findIdx? (fun v => v) with
    | none => none
    | some i =>
      match (List.range a.length).find? (fun l =>
          decide (l ≠ i) &&
          (if a.getD l false then Bool.xor (b.getD l false) (b.getD i false)
           else b.getD l false)) with
      | none => none
      | some j =>
        match (List.range a.length).find? (fun l =>
            decide (l ≠ i ∧ l ≠ j) &&
            (let bb2 := if a.getD l false then Bool.xor (b.getD l false) (b.getD i false)
                        else b.getD l false
             let cc2 := if a.getD l false then Bool.xor (c.getD l false) (c.getD i false)
                        else c.getD l false
             let cj2 := if a.getD j false then Bool.xor (c.getD j false) (c.getD i false)
                        else c.getD j false
             if bb2 then Bool.xor cc2 cj2 else cc2)) with
        | none => none
        | some k =>
          let bk2 := if a.getD k false then Bool.xor (b.getD k false) (b.getD i false)
                     else b.getD k false
          let cj2 := if a.getD j false then Bool.xor (c.getD j false) (c.getD i false)
                     else c.getD j false
          let core :=
            (if a.getD j false then [(i, j)] else []) ++
            (if a.getD k false then [(i, k)] else []) ++
            (if bk2 then [(j, k)] else []) ++
            (if c.getD i false then [(k, i)] else []) ++
            (if cj2 then [(k, j)] else []) ++
            (if b.getD i false then [(j, i)] else [])
          let swapped := core.map fun pq => (pq.2, pq.1)
          let other := ((List.range a.length).map fun l =>
            if l = i ∨ l = j ∨ l = k then []
            else (if a.getD l false then [(l, i)] else []) ++
                 (if b.getD l false then [(l, j)] else []) ++
                 (if c.getD l false then [(l, k)] else [])).flatten
          let basis := swapped ++ other
          some (basis.map (fun pq => Gate.CNOT (map.getD pq.1 0) (map.getD pq.2 0))
            ++ [Gate.CCZ (map.getD i 0) (map.getD j 0) (map.getD k 0),
                Gate.CZ (map.getD i 0) (map.getD j 0),
                Gate.CZ (map.getD i 0) (map.getD k 0),
                Gate.CZ (map.getD j 0) (map.getD k 0),
                Gate.Phase 4 (map.getD i 0),
                Gate.Phase 4 (map.getD j 0),
                Gate.Phase 4 (map.getD k 0)]
            ++ basis.reverse.map (fun pq => Gate.CNOT (map.getD pq.1 0) (map.getD pq.2 0)))

/-- `Circuit::try_synth_cs_gadget` (extract.rs:183-232) on a 3-column
window. -/
def try_synth_cs_gadget (cols : List (List Bool)) (map : List ℕ) : Option (List Gate) :=
  let a := cols.getD 0 []
  let b := cols.getD 1 []
  let c := cols.getD 2 []
  if a = b then none
  else if ¬ (xor_col a b = c) then none
  else
    match (List.range a.length).find? (fun l => a.getD l false) with
    | none => none
    | some i =>
      let bi := b.getD i false
      match (List.range a.length).find? (fun l =>
          (a.getD l false || b.getD l false) &&
          (!(a.getD l false) || decide (b.getD l false ≠ bi))) with
      | none => none
      | some j =>
        let basis :=
          (if a.getD j false then [(j, i)] else []) ++
          (if bi then [(i, j)] else []) ++
          ((List.range a.length).map fun k =>
            if k = i ∨ k = j then []
            else (if a.getD k false then [(k, i)] else []) ++
                 (if b.getD k false then [(k, j)] else [])).flatten
        some (basis.map (fun pq => Gate.CNOT (map.getD pq.1 0) (map.getD pq.2 0))
          ++ [Gate.CS (map.getD i 0) (map.getD j 0),
              Gate.CZ (map.getD i 0) (map.getD j 0),
              Gate.Phase 2 (map.getD i 0),
              Gate.Phase 2 (map.getD j 0)]
          ++ basis.reverse.map (fun pq => Gate.CNOT (map.getD pq.1 0) (map.getD pq.2 0)))

/-- The column loop of `extract_gadgets` (extract.rs:257-286) over the list
of remaining columns, with fuel (each step consumes at least one column, so
the column count is enough fuel).  Returns the gates and the counts
(nccz, ncs, nt). -/
def eg_loop (map : List ℕ) (gadgets : Bool) : ℕ → List (List Bool) → List Gate × ℕ × ℕ × ℕ
  | 0, _ => ([], 0, 0, 0)
  | _+1, [] => ([], 0, 0, 0)
  | fuel+1, cols@(c0 :: rest) =>
    if gadgets ∧ 7 ≤ cols.length then
      match try_synth_ccz_gadget (cols.take 7) map with
      | some gs =>
        let r := eg_loop map gadgets fuel (cols.drop 7)
        (gs ++ r.1, r.2.1 + 1, r.2.2.1, r.2.2.2)
      | none =>
        if 3 ≤ cols.length then
          match try_synth_cs_gadget (cols.take 3) map with
          | some gs =>
            let r := eg_loop map gadgets fuel (cols.drop 3)
            (gs ++ r.1, r.2.1, r.2.2.1 + 1, r.2.2.2)
          | none =>
            let r := eg_loop map gadgets fuel rest
            (synth_gadget c0 map ++ r.1, r.2.1, r.2.2.1, r.2.2.2 + 1)
        else
          let r := eg_loop map gadgets fuel rest
          (synth_gadget c0 map ++ r.1, r.2.1, r.2.2.1, r.2.2.2 + 1)
    else if gadgets ∧ 3 ≤ cols.length then
      match try_synth_cs_gadget (cols.take 3) map with
      | some gs =>
        let r := eg_loop map gadgets fuel (cols.drop 3)
        (gs ++ r.1, r.2.1, r.2.2.1 + 1, r.2.2.2)
      | none =>
        let r := eg_loop map gadgets fuel rest
        (synth_gadget c0 map ++ r.1, r.2.1, r.2.2.1, r.2.2.2 + 1)
    else
      let r := eg_loop map gadgets fuel rest
      (synth_gadget c0 map ++ r.1, r.2.1, r.2.2.1, r.2.2.2 + 1)

/-- `extract::extract_gadgets` on a matrix given as a list of columns. -/
def extract_gadgets (a : List (List Bool)) (map : List ℕ) (gadgets : Bool) :
    Circuit × ℕ × ℕ × ℕ :=
  let r := eg_loop map gadgets a.length a
  (⟨r.1⟩, r.2)

/-! ### The block-merge optimizer (`PartitionedCircuit::pick_gadgets`,
decompose.rs:232-290)

The randomness of `rand::thread_rng` feeding `shuffle` is made explicit: the
search is parameterized by the stream of shuffled index lists it would
consume, one list per iteration of the `'outer` loop of each of the `iters`
attempts.  An entry of the working list is (cost, start, end): the Hadamard
cost of the merged run and its half-open span over the original blocks. -/

/-- Merging the three adjacent entries i−1, i, i+1 into entry i−1 (the two
`remove`s and the update of decompose.rs:255-258): the merged entry keeps
entry i−1's start, takes entry i+1's end, and sums the three costs. -/
def merge_at (rb : List (ℕ × ℕ × ℕ)) (i : ℕ) : List (ℕ × ℕ × ℕ) :=
  let c2 := rb.getD (i+1) (0, 0, 0)
  let c1 := rb.getD i (0, 0, 0)
  let c0 := rb.getD (i-1) (0, 0, 0)
  rb.take (i-1) ++ [(c0.1 + c1.1 + c2.1, c0.2.1, c2.2.2)] ++ rb.drop (i+2)

/-- The acceptance test of decompose.rs:254: the combined cost of the three
adjacent entries is within budget.  The two bounds checks are implicit in
Rust (the shuffled odd range only produces in-bounds indices; out-of-bounds
indexing would panic) and made explicit here. -/
def accept (budget : ℕ) (rb : List (ℕ × ℕ × ℕ)) (i : ℕ) : Bool :=
  decide (1 ≤ i) && decide (i + 1 < rb.length) &&
  decide ((rb.getD (i-1) (0,0,0)).1 + (rb.getD i (0,0,0)).1 + (rb.getD (i+1) (0,0,0)).1 ≤ budget)

/-- One pass over a shuffled index list: the first acceptable junction. -/
def pass_perm (budget : ℕ) (rb : List (ℕ × ℕ × ℕ)) : List ℕ → Option ℕ
  | [] => none
  | i :: rest => if accept budget rb i then some i else pass_perm budget rb rest

/-- The `'outer` loop of one search attempt: merge at the first acceptable
junction of the current shuffled list and restart with the next one; stop
when a full pass accepts nothing (or the supplied stream is exhausted). -/
def run_attempt (budget : ℕ) : List (List ℕ) → List (ℕ × ℕ × ℕ) → List (ℕ × ℕ × ℕ)
  | [], rb => rb
  | perm :: ps, rb =>
    match pass_perm budget rb perm with
    | none => rb
    | some i => run_attempt budget ps (merge_at rb i)

/-- The `for _ in 0..iters` loop: run attempts from the original list,
keep the best (fewest entries, first found), early-exit at one block. -/
def pick_loop (budget : ℕ) (perms : ℕ → List (List ℕ)) (init : List (ℕ × ℕ × ℕ)) :
    ℕ → ℕ → List (ℕ × ℕ × ℕ) → List (ℕ × ℕ × ℕ)
  | _, 0, best => best
  | k, rem+1, best =>
    let run := run_attempt budget (perms k) init
    let best2 := if run.length < best.length then run else best
    if best2.length = 1 then best2 else pick_loop budget perms init (k+1) rem best2

/-- Physically concatenating the original blocks of a span (decompose.rs:279-287). -/
def concat_blocks (blocks : List Circuit) (a b : ℕ) : Circuit :=
  ⟨(((blocks.drop a).take (b - a)).map Circuit.gates).flatten⟩

/-- `PartitionedCircuit::pick_gadgets`, with the shuffle outcomes supplied
as `perms` (attempt index ↦ its stream of shuffled junction lists). -/
def PartitionedCircuit.pick_gadgets (pc : PartitionedCircuit) (budget iters : ℕ)
    (perms : ℕ → List (List ℕ)) : PartitionedCircuit :=
  if pc.blocks.length ≤ 1 then pc
  else
    let init := pc.blocks.enum.map fun ib => (ib.2.count_hadamards, ib.1, ib.1 + 1)
    let best := pick_loop budget perms init 0 iters init
    { front := pc.front, back := pc.back,
      blocks := best.map fun e => concat_blocks pc.blocks e.2.1 e.2.2 }

/-! ### Phase-polynomial algebra (`extract.rs:4-95`)

A gate synthesis matrix is `n` rows by `r` columns of booleans; the
phase-polynomial state is a total function from index triples to naturals
below 8 (entries outside the loop ranges stay 0, like the untouched entries
of the Rust array). -/

/-- A boolean matrix with shape (n, r); `entry i l` is row i, column l. -/
structure BMatrix where
  n : ℕ
  r : ℕ
  entry : ℕ → ℕ → Bool

/-- Point update of a phase-polynomial state. -/
def upd (s : ℕ × ℕ × ℕ → ℕ) (p : ℕ × ℕ × ℕ) (v : ℕ) : ℕ × ℕ × ℕ → ℕ :=
  fun q => if q = p then v else s q

/-- Adding to an entry mod 8, the shape of every write of the first loop of
`find_phase_polynomial`. -/
def add_upd (s : ℕ × ℕ × ℕ → ℕ) (p : ℕ × ℕ × ℕ) (x : ℕ) : ℕ × ℕ × ℕ → ℕ :=
  upd s p ((s p + x) % 8)

/-- The cubic increment of column l at (i,j,k) (extract.rs:29). -/
def c3v (M : BMatrix) (l i j k : ℕ) : ℕ :=
  if M.entry i l && M.entry j l && M.entry k l then 1 else 0

/-- The quadratic increment of column l at (i,j,j) (extract.rs:32). -/
def c2v (M : BMatrix) (l i j : ℕ) : ℕ :=
  (11 - M.n % 8) * (if M.entry i l && M.entry j l then 1 else 0)

/-- The diagonal increment of column l at (i,i,i) (extract.rs:35). -/
def c1v (M : BMatrix) (l i : ℕ) : ℕ :=
  (M.n % 8 + 6) * (M.n % 8 + 5) * (if M.entry i l then 1 else 0)

/-- The innermost loop body of the accumulation loop of
`find_phase_polynomial` (extract.rs:29): one cubic increment. -/
def poly_kstep (M : BMatrix) (l i j : ℕ) (s : ℕ × ℕ × ℕ → ℕ) (k : ℕ) : ℕ × ℕ × ℕ → ℕ :=
  add_upd s (i, j, k) (c3v M l i j k)

/-- The j-loop body (extract.rs:27-33): the k-loop, then one quadratic
increment. -/
def poly_jstep (M : BMatrix) (l i : ℕ) (s : ℕ × ℕ × ℕ → ℕ) (j : ℕ) : ℕ × ℕ × ℕ → ℕ :=
  add_upd ((List.range j).foldl (poly_kstep M l i j) s) (i, j, j) (c2v M l i j)

/-- The i-loop body (extract.rs:26-36): the j-loop, then one diagonal
increment. -/
def poly_istep (M : BMatrix) (l : ℕ) (s : ℕ × ℕ × ℕ → ℕ) (i : ℕ) : ℕ × ℕ × ℕ → ℕ :=
  add_upd ((List.range i).foldl (poly_jstep M l i) s) (i, i, i) (c1v M l i)

/-- The whole body of the accumulation loop for one column l. -/
def poly_body (M : BMatrix) (l : ℕ) (s : ℕ × ℕ × ℕ → ℕ) : ℕ × ℕ × ℕ → ℕ :=
  (List.range M.n).foldl (poly_istep M l) s

/-- The accumulation loop of `find_phase_polynomial` (extract.rs:24-37):
for every column l, add the cubic/quadratic/diagonal increments, each write
reduced mod 8. -/
def poly_init (M : BMatrix) : ℕ × ℕ × ℕ → ℕ :=
  (List.range M.r).foldl (fun s l => poly_body M l s) (fun _ => 0)

/-- The loop order of the size-3 rewrite (extract.rs:40-53): i, then j < i,
then k < j. -/
def cubic_triples (n : ℕ) : List (ℕ × ℕ × ℕ) :=
  ((List.range n).map fun i =>
    ((List.range i).map fun j =>
      (List.range j).map fun k => ((i, j, k) : ℕ × ℕ × ℕ)).flatten).flatten

/-- One step of the size-3 rewrite (extract.rs:43-50). -/
def cubic_step (s : ℕ × ℕ × ℕ → ℕ) : ℕ × ℕ × ℕ → ℕ × ℕ × ℕ → ℕ
  | (i, j, k) =>
    if s (i, j, k) = 0 then s
    else
      let s1 := upd s (i, i, i) ((s (i, i, i) + 7 * s (i, j, k)) % 8)
      let s2 := upd s1 (j, j, j) ((s1 (j, j, j) + 7 * s1 (i, j, k)) % 8)
      let s3 := upd s2 (k, k, k) ((s2 (k, k, k) + 7 * s2 (i, j, k)) % 8)
      let s4 := upd s3 (i, j, j) ((s3 (i, j, j) + s3 (i, j, k)) % 8)
      let s5 := upd s4 (i, k, k) ((s4 (i, k, k) + s4 (i, j, k)) % 8)
      let s6 := upd s5 (j, k, k) ((s5 (j, k, k) + s5 (i, j, k)) % 8)
      upd s6 (i, j, k) ((4 * s6 (i, j, k)) % 8)

/-- The loop order of the size-2 rewrite (extract.rs:56-63). -/
def quad_pairs (n : ℕ) : List (ℕ × ℕ) :=
  ((List.range n).map fun i => (List.range i).map fun j => ((i, j) : ℕ × ℕ)).flatten

/-- One step of the size-2 rewrite (extract.rs:58-61). -/
def quad_step (s : ℕ × ℕ × ℕ → ℕ) : ℕ × ℕ → ℕ × ℕ × ℕ → ℕ
  | (i, j) =>
    if s (i, j, j) = 0 then s
    else
      let s1 := upd s (i, i, i) ((s (i, i, i) + s (i, j, j)) % 8)
      let s2 := upd s1 (j, j, j) ((s1 (j, j, j) + s1 (i, j, j)) % 8)
      upd s2 (i, j, j) ((6 * s2 (i, j, j)) % 8)

/-- `find_phase_polynomial` (extract.rs:18-66). -/
def find_phase_polynomial (M : BMatrix) : ℕ × ℕ × ℕ → ℕ :=
  (quad_pairs M.n).foldl quad_step ((cubic_triples M.n).foldl cubic_step (poly_init M))

/-- `find_signature_tensor` (extract.rs:6-12); the Rust
`reduce(|a, b| a ^ b).unwrap_or(false)` is a left fold of XOR from `false`. -/
def find_signature_tensor (M : BMatrix) (i j k : ℕ) : Bool :=
  ((List.range M.r).map fun l => M.entry i l && M.entry j l && M.entry k l).foldl
    Bool.xor false

/-- `clifford_correction` (extract.rs:71-95): the pointwise difference
`(b + 8 - a) % 8` of the two phase polynomials, synthesized as a CZ for
every quadratic entry equal to 4 and a phase gate for every non-zero
diagonal entry, in loop order. -/
def clifford_correction (a b : BMatrix) (map : List ℕ) : Circuit :=
  let sc : ℕ × ℕ × ℕ → ℕ := fun p =>
    (find_phase_polynomial b p + 8 - find_phase_polynomial a p) % 8
  ⟨((List.range a.n).map fun i =>
      ((List.range i).map fun j =>
        if sc (i, j, j) = 4 then [Gate.CZ (map.getD i 0) (map.getD j 0)] else []).flatten
      ++ (if sc (i, i, i) ≠ 0 then [Gate.Phase (sc (i, i, i)) (map.getD i 0)] else [])).flatten⟩

/-! ### Concrete inputs used by the scenario claims and witnesses -/

/-- Whether a gate is a CNOT or a phase gate. -/
def is_cnot_phase_gate : Gate → Bool
  | .CNOT _ _ => true
  | .Phase _ _ => true
  | _ => false

/-- The single-gate circuit CCZ(0,1,2). -/
def ccz_example : Circuit := ⟨[.CCZ 0 1 2]⟩

/-- The conjugated-T scenario circuit [H(0), CNOT(0,1), T(1), CNOT(0,1), H(0)]. -/
def hconj_example : Circuit := ⟨[.H 0, .CNOT 0 1, .Phase 1 1, .CNOT 0 1, .H 0]⟩

/-- The 3-row, 1-column all-ones synthesis matrix (one T gadget on the
parity of three qubits). -/
def all_ones_31 : BMatrix := ⟨3, 1, fun _ _ => true⟩

/-- A 1-row, 1-column all-ones matrix (a single T on qubit 0). -/
def one_t_mat : BMatrix := ⟨1, 1, fun _ _ => true⟩

/-- A 1-row, 3-column all-ones matrix (three Ts on qubit 0). -/
def three_t_mat : BMatrix := ⟨1, 3, fun _ _ => true⟩

/-- The spans (start, end) of a block-merge working list tile an interval
in order: each entry starts where the previous one ended, is non-empty, and
the last one ends at the right endpoint. -/
def chain_spans : ℕ → List (ℕ × ℕ × ℕ) → ℕ → Prop
  | s, [], e => s = e
  | s, x :: t, e => x.2.1 = s ∧ s < x.2.2 ∧ chain_spans x.2.2 t e

/-- The total Hadamard cost of the original blocks with indices in [a, b). -/
def span_cost (cs : List ℕ) (a b : ℕ) : ℕ := ((cs.drop a).take (b - a)).sum

/-- The invariant of the block-merge search: the working list tiles the
original block index range, every entry's cost is the total cost of its
span, and every entry spanning at least two original blocks is within
budget. -/
def spans_inv (cs : List ℕ) (budget : ℕ) (rb : List (ℕ × ℕ × ℕ)) : Prop :=
  chain_spans 0 rb cs.length
  ∧ (∀ e ∈ rb, e.1 = span_cost cs e.2.1 e.2.2)
  ∧ (∀ e ∈ rb, e.2.1 + 2 ≤ e.2.2 → e.1 ≤ budget)

/-!
## Theorems

First a toolbox of small lemmas about point updates and folds over
phase-polynomial states, then the claims in order.
-/

@[simp]
theorem upd_same (s : ℕ × ℕ × ℕ → ℕ) (p : ℕ × ℕ × ℕ) (v : ℕ) : upd s p v p = v :=
  if_pos rfl

theorem upd_ne (s : ℕ × ℕ × ℕ → ℕ) (p : ℕ × ℕ × ℕ) (v : ℕ) (q : ℕ × ℕ × ℕ)
    (h : q ≠ p) : upd s p v q = s q :=
  if_neg h

/-- A fold leaves an entry unchanged when no step touches it. -/
theorem foldl_pres_pt {α : Type} (step : (ℕ × ℕ × ℕ → ℕ) → α → ℕ × ℕ × ℕ → ℕ)
    (L : List α) (p : ℕ × ℕ × ℕ)
    (h : ∀ s q, q ∈ L → step s q p = s p) (s : ℕ × ℕ × ℕ → ℕ) :
    (L.foldl step s) p = s p := by
  induction L generalizing s with
  | nil => rfl
  | cons x t ih =>
    simp only [List.foldl_cons]
    rw [ih (fun s' q hq => h s' q (List.mem_cons_of_mem _ hq)) (step s x)]
    exact h s x (List.mem_cons_self x t)

/-- A fold establishes a value property at the entry owned by one of its
steps, provided the owning step establishes it and no other step of the
list touches that entry. -/
theorem foldl_attain {α : Type} (step : (ℕ × ℕ × ℕ → ℕ) → α → ℕ × ℕ × ℕ → ℕ)
    (own : α → ℕ × ℕ × ℕ) (V : ℕ → Prop) (L : List α) (q : α) (hq : q ∈ L)
    (hstep : ∀ s, V ((step s q) (own q)))
    (hpres : ∀ s q', q' ∈ L → own q' ≠ own q → (step s q') (own q) = s (own q))
    (hinj : ∀ q' ∈ L, own q' = own q → q' = q) (s : ℕ × ℕ × ℕ → ℕ) :
    V ((L.foldl step s) (own q)) := by
  induction L generalizing s with
  | nil => cases hq
  | cons x t ih =>
    simp only [List.foldl_cons]
    by_cases hx : q ∈ t
    · exact ih hx (fun s' q' h' => hpres s' q' (List.mem_cons_of_mem _ h'))
        (fun q' h' => hinj q' (List.mem_cons_of_mem _ h')) _
    · have hqx : q = x := by
        rcases List.mem_cons.mp hq with h | h
        · exact h
        · exact absurd h hx
      subst hqx
      have hpt : (t.foldl step (step s q)) (own q) = (step s q) (own q) := by
        refine foldl_pres_pt step t (own q) (fun s' q' hq' => ?_) _
        refine hpres s' q' (List.mem_cons_of_mem _ hq') (fun he => ?_)
        exact hx (hinj q' (List.mem_cons_of_mem _ hq') he ▸ hq')
      rw [hpt]
      exact hstep s

theorem mem_flatten_map_range {α : Type} (f : ℕ → List α) (n : ℕ) (x : α) :
    x ∈ ((List.range n).map f).flatten ↔ ∃ i, i < n ∧ x ∈ f i := by
  rw [List.mem_flatten]
  constructor
  · rintro ⟨l, hl, hx⟩
    rw [List.mem_map] at hl
    obtain ⟨i, hi, rfl⟩ := hl
    exact ⟨i, List.mem_range.mp hi, hx⟩
  · rintro ⟨i, hi, hx⟩
    exact ⟨f i, List.mem_map.mpr ⟨i, List.mem_range.mpr hi, rfl⟩, hx⟩

theorem cubic_triples_mem (n i j k : ℕ) :
    ((i, j, k) : ℕ × ℕ × ℕ) ∈ cubic_triples n ↔ k < j ∧ j < i ∧ i < n := by
  unfold cubic_triples
  rw [mem_flatten_map_range]
  constructor
  · rintro ⟨i', hi', h⟩
    rw [mem_flatten_map_range] at h
    obtain ⟨j', hj', h⟩ := h
    rw [List.mem_map] at h
    obtain ⟨k', hk', hEq⟩ := h
    obtain ⟨rfl, rfl, rfl⟩ : i' = i ∧ j' = j ∧ k' = k := by
      simpa [Prod.ext_iff] using hEq
    exact ⟨List.mem_range.mp hk', hj', hi'⟩
  · rintro ⟨hk, hj, hi⟩
    refine ⟨i, hi, ?_⟩
    rw [mem_flatten_map_range]
    exact ⟨j, hj, List.mem_map.mpr ⟨k, List.mem_range.mpr hk, rfl⟩⟩

theorem quad_pairs_mem (n i j : ℕ) :
    ((i, j) : ℕ × ℕ) ∈ quad_pairs n ↔ j < i ∧ i < n := by
  unfold quad_pairs
  rw [mem_flatten_map_range]
  constructor
  · rintro ⟨i', hi', h⟩
    rw [List.mem_map] at h
    obtain ⟨j', hj', hEq⟩ := h
    obtain ⟨rfl, rfl⟩ : i' = i ∧ j' = j := by
      simpa [Prod.ext_iff] using hEq
    exact ⟨List.mem_range.mp hj', hi'⟩
  · rintro ⟨hj, hi⟩
    exact ⟨i, hi, List.mem_map.mpr ⟨j, List.mem_range.mpr hj, rfl⟩⟩

/-- A step of the size-3 rewrite leaves its own cubic entry at 0 or 4. -/
theorem cubic_step_own (s : ℕ × ℕ × ℕ → ℕ) (i j k : ℕ) :
    (cubic_step s (i, j, k)) (i, j, k) = 0 ∨ (cubic_step s (i, j, k)) (i, j, k) = 4 := by
  unfold cubic_step
  by_cases h : s (i, j, k) = 0
  · simp only [if_pos h]
    exact Or.inl h
  · simp only [if_neg h]
    rw [upd_same]
    omega

/-- A step of the size-3 rewrite does not touch any other strictly
decreasing triple. -/
theorem cubic_step_other (s : ℕ × ℕ × ℕ → ℕ) (i j k x y z : ℕ)
    (hz : z < y) (hy : y < x)
    (hne : ((x, y, z) : ℕ × ℕ × ℕ) ≠ (i, j, k)) :
    (cubic_step s (i, j, k)) (x, y, z) = s (x, y, z) := by
  unfold cubic_step
  by_cases h : s (i, j, k) = 0
  · simp only [if_pos h]
  · simp only [if_neg h]
    rw [upd_ne _ _ _ _ hne]
    rw [upd_ne _ _ _ _ (by simp only [ne_eq, Prod.mk.injEq, not_and]; omega)]
    rw [upd_ne _ _ _ _ (by simp only [ne_eq, Prod.mk.injEq, not_and]; omega)]
    rw [upd_ne _ _ _ _ (by simp only [ne_eq, Prod.mk.injEq, not_and]; omega)]
    rw [upd_ne _ _ _ _ (by simp only [ne_eq, Prod.mk.injEq, not_and]; omega)]
    rw [upd_ne _ _ _ _ (by simp only [ne_eq, Prod.mk.injEq, not_and]; omega)]
    rw [upd_ne _ _ _ _ (by simp only [ne_eq, Prod.mk.injEq, not_and]; omega)]

/-- A step of the size-2 rewrite leaves its own quadratic entry even. -/
theorem quad_step_own (s : ℕ × ℕ × ℕ → ℕ) (i j : ℕ) :
    (quad_step s (i, j)) (i, j, j) % 2 = 0 := by
  unfold quad_step
  by_cases h : s (i, j, j) = 0
  · simp only [if_pos h]
    omega
  · simp only [if_neg h]
    rw [upd_same]
    omega

/-- A step of the size-2 rewrite does not touch the quadratic entry of any
other pair. -/
theorem quad_step_other (s : ℕ × ℕ × ℕ → ℕ) (i j x y : ℕ) (hj : j < i) (hy : y < x)
    (hne : ((x, y) : ℕ × ℕ) ≠ (i, j)) :
    (quad_step s (i, j)) (x, y, y) = s (x, y, y) := by
  unfold quad_step
  by_cases h : s (i, j, j) = 0
  · simp only [if_pos h]
  · simp only [if_neg h]
    rw [upd_ne _ _ _ _ (by simp only [ne_eq, Prod.mk.injEq, not_and] at hne ⊢; omega)]
    rw [upd_ne _ _ _ _ (by simp only [ne_eq, Prod.mk.injEq, not_and]; omega)]
    rw [upd_ne _ _ _ _ (by simp only [ne_eq, Prod.mk.injEq, not_and]; omega)]

/-- A step of the size-2 rewrite does not touch any strictly decreasing
triple. -/
theorem quad_step_pres_strict (s : ℕ × ℕ × ℕ → ℕ) (i j x y z : ℕ) (hj : j < i)
    (hz : z < y) (hy : y < x) :
    (quad_step s (i, j)) (x, y, z) = s (x, y, z) := by
  unfold quad_step
  by_cases h : s (i, j, j) = 0
  · simp only [if_pos h]
  · simp only [if_neg h]
    rw [upd_ne _ _ _ _ (by simp only [ne_eq, Prod.mk.injEq, not_and]; omega)]
    rw [upd_ne _ _ _ _ (by simp only [ne_eq, Prod.mk.injEq, not_and]; omega)]
    rw [upd_ne _ _ _ _ (by simp only [ne_eq, Prod.mk.injEq, not_and]; omega)]

/-- C2: the claim "off-diagonal cubic entries are zero and quadratic and
diagonal entries are even" fails: on the 3-by-1 all-ones matrix the cubic
entry (2,1,0) is 4 and the diagonal entries are 1 (odd). -/
theorem claim_C2_counterexample :
    ¬ (find_phase_polynomial all_ones_31 (2, 1, 0) = 0 ∧
       find_phase_polynomial all_ones_31 (2, 2, 2) % 2 = 0) := by
  decide

/-- C2, amended: for every matrix, every off-diagonal cubic entry (i,j,k)
with i > j > k of `find_phase_polynomial` is 0 or 4 (hence even, but not
necessarily zero), and every quadratic entry (i,j,j) with i > j is even;
the diagonal entries need not be even. -/
theorem claim_C2 (M : BMatrix) :
    (∀ i < M.n, ∀ j < i, ∀ k < j,
      find_phase_polynomial M (i, j, k) = 0 ∨ find_phase_polynomial M (i, j, k) = 4)
    ∧ (∀ i < M.n, ∀ j < i, find_phase_polynomial M (i, j, j) % 2 = 0) := by
  constructor
  · intro i hi j hj k hk
    unfold find_phase_polynomial
    have hq : ((quad_pairs M.n).foldl quad_step
        ((cubic_triples M.n).foldl cubic_step (poly_init M))) (i, j, k)
        = ((cubic_triples M.n).foldl cubic_step (poly_init M)) (i, j, k) := by
      refine foldl_pres_pt _ _ _ (fun s q hq => ?_) _
      obtain ⟨a, b⟩ := q
      obtain ⟨hb, _⟩ := (quad_pairs_mem M.n a b).mp hq
      exact quad_step_pres_strict s a b i j k hb hk hj
    rw [hq]
    exact foldl_attain cubic_step id (fun v => v = 0 ∨ v = 4) (cubic_triples M.n)
      (i, j, k) ((cubic_triples_mem M.n i j k).mpr ⟨hk, hj, hi⟩)
      (fun s => cubic_step_own s i j k)
      (fun s q' hq' hne => by
        obtain ⟨a, b, c⟩ := q'
        obtain ⟨h1, h2, _⟩ := (cubic_triples_mem M.n a b c).mp hq'
        exact cubic_step_other s a b c i j k hk hj (by simpa [ne_eq, eq_comm] using hne))
      (fun q' _ h => h) _
  · intro i hi j hj
    unfold find_phase_polynomial
    exact foldl_attain quad_step (fun pr => (pr.1, pr.2, pr.2)) (fun v => v % 2 = 0)
      (quad_pairs M.n) (i, j) ((quad_pairs_mem M.n i j).mpr ⟨hj, hi⟩)
      (fun s => quad_step_own s i j)
      (fun s q' hq' hne => by
        obtain ⟨a, b⟩ := q'
        obtain ⟨h1, _⟩ := (quad_pairs_mem M.n a b).mp hq'
        exact quad_step_other s a b i j h1 hj
          (by simp only [ne_eq, Prod.mk.injEq, not_and] at hne ⊢; omega))
      (fun q' _ h => by
        obtain ⟨a, b⟩ := q'
        simp only [Prod.mk.injEq] at h ⊢
        exact ⟨h.1, h.2.1⟩) _

/-- C2 witness: the amended theorem applied to the 3-by-1 all-ones matrix at
the cubic entry (2,1,0) and the quadratic entry (2,1,1). -/
theorem claim_C2_witness :
    (find_phase_polynomial all_ones_31 (2, 1, 0) = 0 ∨
     find_phase_polynomial all_ones_31 (2, 1, 0) = 4) ∧
    find_phase_polynomial all_ones_31 (2, 1, 1) % 2 = 0 :=
  ⟨(claim_C2 all_ones_31).1 2 (by decide) 1 (by decide) 0 (by decide),
   (claim_C2 all_ones_31).2 2 (by decide) 1 (by decide)⟩

/-- C6: the replacement pass of `to_cnot_phase` rewrites each CZ, CS, SWAP
and CCZ gate into its fixed CNOT+Phase template, in place at its original
position (the surrounding gates are rewritten independently).  Phases are
mod 8, so −S = 6 and −T = 7. -/
theorem claim_C6 :
    ∀ (pre post : List Gate) (a b c : ℕ),
      decomp_pass (pre ++ Gate.CZ a b :: post) =
        decomp_pass pre ++
          [Gate.Phase 6 a, Gate.Phase 6 b, Gate.CNOT a b, Gate.Phase 2 b,
           Gate.CNOT a b] ++ decomp_pass post
    ∧ decomp_pass (pre ++ Gate.CS a b :: post) =
        decomp_pass pre ++
          [Gate.CNOT a b, Gate.Phase 7 b, Gate.CNOT a b, Gate.Phase 1 a,
           Gate.Phase 1 b] ++ decomp_pass post
    ∧ decomp_pass (pre ++ Gate.SWAP a b :: post) =
        decomp_pass pre ++
          [Gate.CNOT a b, Gate.CNOT b a, Gate.CNOT a b] ++ decomp_pass post
    ∧ decomp_pass (pre ++ Gate.CCZ a b c :: post) =
        decomp_pass pre ++
          [Gate.CNOT b c, Gate.Phase 7 c, Gate.CNOT a c, Gate.Phase 1 c,
           Gate.CNOT b c, Gate.Phase 7 c, Gate.CNOT a c, Gate.Phase 1 c,
           Gate.Phase 1 b, Gate.CNOT a b, Gate.Phase 1 a, Gate.Phase 7 b,
           Gate.CNOT a b] ++ decomp_pass post := by
  intro pre post a b c
  refine ⟨?_, ?_, ?_, ?_⟩ <;>
    simp [decomp_pass, cnot_phase_decomp, phase_neg]

/-- Every gate produced by the replacement templates of a non-H gate is a
CNOT, a phase gate, or an X. -/
theorem cnot_phase_decomp_kinds (g h : Gate) (hg : ∀ q, g ≠ Gate.H q)
    (hh : h ∈ cnot_phase_decomp g) :
    is_cnot_phase_gate h = true ∨ ∃ q, h = Gate.X q := by
  cases g with
  | H q => exact absurd rfl (hg q)
  | X q =>
    simp only [cnot_phase_decomp, List.mem_singleton] at hh
    exact Or.inr ⟨q, hh⟩
  | _ =>
    first
    | (simp only [cnot_phase_decomp, List.mem_singleton] at hh
       subst hh; exact Or.inl rfl)
    | (simp only [cnot_phase_decomp, List.mem_cons, List.not_mem_nil, or_false] at hh
       rcases hh with rfl | rfl | rfl | rfl | rfl | rfl | rfl | rfl | rfl | rfl | rfl | rfl | rfl <;>
         exact Or.inl rfl)

/-- Propagating an X set through a CNOT+Phase-only list keeps it
CNOT+Phase-only. -/
theorem propagate_x_kinds (s : Finset ℕ) (l : List Gate)
    (hl : ∀ g ∈ l, is_cnot_phase_gate g = true) :
    ∀ g ∈ (propagate_x s l).1, is_cnot_phase_gate g = true := by
  induction l generalizing s with
  | nil => intro g hg; cases hg
  | cons x t ih =>
    intro g hg
    cases x with
    | CNOT a b =>
      rw [propagate_x] at hg
      rcases List.mem_cons.mp hg with rfl | hg
      · rfl
      · exact ih (cnot_toggle s a b) (fun g' hg' => hl g' (List.mem_cons_of_mem _ hg')) g hg
    | Phase p q =>
      rw [propagate_x] at hg
      rcases List.mem_cons.mp hg with rfl | hg
      · by_cases hq : q ∈ s <;> simp [hq, is_cnot_phase_gate]
      · exact ih s (fun g' hg' => hl g' (List.mem_cons_of_mem _ hg')) g hg
    | _ =>
      exact absurd (hl _ (List.mem_cons_self _ _)) (by simp [is_cnot_phase_gate])

/-- The X-elimination pass turns a CNOT+Phase+X list into a CNOT+Phase-only
list. -/
theorem move_xs_kinds (l : List Gate)
    (hl : ∀ g ∈ l, is_cnot_phase_gate g = true ∨ ∃ q, g = Gate.X q) :
    ∀ g ∈ (move_xs l).1, is_cnot_phase_gate g = true := by
  induction l with
  | nil => intro g hg; cases hg
  | cons x t ih =>
    have ht := ih (fun g hg => hl g (List.mem_cons_of_mem _ hg))
    intro g hg
    cases x with
    | X q =>
      rw [move_xs] at hg
      exact propagate_x_kinds {q} (move_xs t).1 ht g hg
    | CNOT a b =>
      simp only [move_xs] at hg
      rcases List.mem_cons.mp hg with rfl | hg
      · rfl
      · exact ht g hg
    | Phase p q =>
      simp only [move_xs] at hg
      rcases List.mem_cons.mp hg with rfl | hg
      · rfl
      · exact ht g hg
    | _ =>
      rcases hl _ (List.mem_cons_self _ _) with h | ⟨q, h⟩ <;> simp [is_cnot_phase_gate] at h

/-- C7: on a circuit with no H gate, `to_cnot_phase` leaves only CNOT and
phase gates (no X, CZ, CS, CCZ or SWAP remains); the returned correction
circuit holds only X gates, at most one per qubit; an X is propagated
rightward by toggling the target's membership at each CNOT whose control is
tracked and by negating the phase of each phase gate on a tracked qubit,
distinct X gates merging by symmetric difference. -/
theorem claim_C7 (c : Circuit) (hH : c.count_hadamards = 0) :
    (∀ g ∈ (c.to_cnot_phase).1.gates, is_cnot_phase_gate g = true)
    ∧ (∀ g ∈ (c.to_cnot_phase).2.gates, ∃ q, g = Gate.X q)
    ∧ (∀ q, (c.to_cnot_phase).2.gates.count (Gate.X q) ≤ 1)
    ∧ (∀ (s : Finset ℕ) (a b : ℕ) (rest : List Gate),
        (propagate_x s (Gate.CNOT a b :: rest)).1 =
          Gate.CNOT a b :: (propagate_x (cnot_toggle s a b) rest).1)
    ∧ (∀ (s : Finset ℕ) (p q : ℕ) (rest : List Gate), q ∈ s →
        (propagate_x s (Gate.Phase p q :: rest)).1 =
          Gate.Phase (phase_neg p) q :: (propagate_x s rest).1)
    ∧ (∀ (q : ℕ) (rest : List Gate),
        (move_xs (Gate.X q :: rest)).2 =
          symmDiff (propagate_x {q} (move_xs rest).1).2 (move_xs rest).2) := by
  have hH' : ∀ g ∈ c.gates, ∀ q, g ≠ Gate.H q := by
    intro g hg q hEq
    subst hEq
    have h0 : (c.gates.filter fun g => match g with | .H _ => true | _ => false) = [] :=
      List.length_eq_zero.mp hH
    have := List.filter_eq_nil_iff.mp h0 _ hg
    simp at this
  refine ⟨?_, ?_, ?_, ?_, ?_, ?_⟩
  · intro g hg
    refine move_xs_kinds (decomp_pass c.gates) (fun h hmem => ?_) g hg
    unfold decomp_pass at hmem
    rw [List.mem_flatten] at hmem
    obtain ⟨l, hl, hmem⟩ := hmem
    rw [List.mem_map] at hl
    obtain ⟨g0, hg0, rfl⟩ := hl
    exact cnot_phase_decomp_kinds g0 h (hH' g0 hg0) hmem
  · intro g hg
    rw [Circuit.to_cnot_phase] at hg
    simp only [List.mem_map] at hg
    obtain ⟨q, _, rfl⟩ := hg
    exact ⟨q, rfl⟩
  · intro q
    rw [Circuit.to_cnot_phase]
    simp only
    rw [List.count_map_of_injective _ Gate.X (fun x y h => by cases h; rfl) q]
    exact List.nodup_iff_count_le_one.mp (Finset.sort_nodup _ _) q
  · intro s a b rest
    rfl
  · intro s p q rest hq
    simp [propagate_x, hq]
  · intro q rest
    rfl

/-- C7 witness: the theorem applied to a concrete H-free circuit with two
X gates, a CZ and a phase gate. -/
theorem claim_C7_witness :
    Circuit.count_hadamards ⟨[Gate.X 0, Gate.CNOT 0 1, Gate.Phase 1 1,
      Gate.CZ 0 1, Gate.X 0]⟩ = 0 ∧
    (∀ g ∈ ((⟨[Gate.X 0, Gate.CNOT 0 1, Gate.Phase 1 1, Gate.CZ 0 1,
        Gate.X 0]⟩ : Circuit).to_cnot_phase).1.gates, is_cnot_phase_gate g = true) :=
  ⟨by decide,
   (claim_C7 ⟨[Gate.X 0, Gate.CNOT 0 1, Gate.Phase 1 1, Gate.CZ 0 1, Gate.X 0]⟩
     (by decide)).1⟩

/-- C3: canonicalizing CCZ(0,1,2) with `to_cnot_phase`, extracting the
7-column synthesis matrix with `Circuit::extract_gadgets`, and
re-synthesizing with gadget matching enabled collapses back to exactly one
CCZ (counts nccz = 1, ncs = 0, nt = 0) with the fixed Clifford correction
of three CZ gates and three Z phases. -/
theorem claim_C3 :
    ((ccz_example.to_cnot_phase).1.extract_gadgets).2.1.length = 7
    ∧ (extract_gadgets ((ccz_example.to_cnot_phase).1.extract_gadgets).2.1
        ((ccz_example.to_cnot_phase).1.extract_gadgets).1 true).2 = (1, 0, 0)
    ∧ ((extract_gadgets ((ccz_example.to_cnot_phase).1.extract_gadgets).2.1
        ((ccz_example.to_cnot_phase).1.extract_gadgets).1 true).1.gates.filter
          (fun g => match g with | .CCZ _ _ _ => true | _ => false)).length = 1
    ∧ ((extract_gadgets ((ccz_example.to_cnot_phase).1.extract_gadgets).2.1
        ((ccz_example.to_cnot_phase).1.extract_gadgets).1 true).1.gates.filter
          (fun g => match g with | .CZ _ _ => true | _ => false)).length = 3
    ∧ ((extract_gadgets ((ccz_example.to_cnot_phase).1.extract_gadgets).2.1
        ((ccz_example.to_cnot_phase).1.extract_gadgets).1 true).1.gates.filter
          (fun g => match g with | .Phase 4 _ => true | _ => false)).length = 3 := by
  decide

/-- C4: the claimed partition of [H(0), CNOT(0,1), T(1), CNOT(0,1), H(0)]
is wrong: the front pull also extracts the first CNOT (a Clifford gate that
overlaps nothing before it once H(0) is gone), so the functional block is
only [T(1)]; and the fallback re-synthesis of the claimed 2-by-1 matrix
(1,1) with map [0,1] puts the T on qubit 0, not qubit 1. -/
theorem claim_C4_counterexample :
    ¬ ((hconj_example.partition).front = ⟨[Gate.H 0]⟩
       ∧ (hconj_example.partition).blocks =
           [⟨[Gate.CNOT 0 1, Gate.Phase 1 1, Gate.CNOT 0 1]⟩]
       ∧ (hconj_example.partition).back = ⟨[Gate.H 0]⟩
       ∧ (Circuit.extract_gadgets
            ⟨[Gate.CNOT 0 1, Gate.Phase 1 1, Gate.CNOT 0 1]⟩).1 = [0, 1]
       ∧ (extract_gadgets [[true, true]] [0, 1] false).1 =
           ⟨[Gate.CNOT 0 1, Gate.Phase 1 1, Gate.CNOT 0 1]⟩) := by
  decide

/-- C4, amended: [H(0), CNOT(0,1), T(1), CNOT(0,1), H(0)] partitions into
front = [H(0), CNOT(0,1)], exactly one functional block = [T(1)], and
back = [CNOT(0,1), H(0)]; extracting that block's gadgets yields the
1-row, 1-column matrix with single column (1), qubit map [1] and an empty
Clifford correction; and re-synthesis with gadgets disabled produces
exactly the 1-gate sequence Phase(T,1) (nt = 1). -/
theorem claim_C4 :
    (hconj_example.partition).front = ⟨[Gate.H 0, Gate.CNOT 0 1]⟩
    ∧ (hconj_example.partition).blocks = [⟨[Gate.Phase 1 1]⟩]
    ∧ (hconj_example.partition).back = ⟨[Gate.CNOT 0 1, Gate.H 0]⟩
    ∧ Circuit.extract_gadgets ⟨[Gate.Phase 1 1]⟩ = ([1], [[true]], ⟨[]⟩)
    ∧ extract_gadgets [[true]] [1] false = (⟨[Gate.Phase 1 1]⟩, 0, 0, 1) := by
  decide

/-- The non-Clifford columns collected by `gadget_scan` from any starting
row state are exactly the spec's description of the synthesis-matrix
columns: one per non-Clifford phase gate, in gate order, holding the row of
that gate's qubit at the time it fires. -/
theorem gadget_scan_columns (gates : List Gate) :
    ∀ m, ((gadget_scan gates m).2.filterMap fun g =>
        if phase_is_clifford g.1 then none else some g.2) =
      spec_columns_from m gates := by
  induction gates with
  | nil => intro m; rfl
  | cons g rest ih =>
    intro m
    cases g with
    | CNOT a b =>
      rw [gadget_scan, spec_columns_from]
      exact ih (cnot_update m a b)
    | Phase p q =>
      rw [gadget_scan, spec_columns_from]
      by_cases hp : phase_is_clifford p
      · simp only [List.filterMap_cons, hp, if_pos, if_true]
        simpa [hp] using ih m
      · simp only [List.filterMap_cons, hp]
        simpa [hp] using congrArg (List.cons (m.getD q [])) (ih m)
    | _ =>
      simp only [gadget_scan, spec_columns_from]
      exact ih m

/-- The spec-side column list has exactly one column per non-Clifford phase
gate. -/
theorem spec_columns_from_length (gates : List Gate) :
    ∀ m, (spec_columns_from m gates).length =
      (gates.filter fun g => match g with
        | .Phase p _ => !(phase_is_clifford p) | _ => false).length := by
  induction gates with
  | nil => intro m; rfl
  | cons g rest ih =>
    intro m
    cases g with
    | CNOT a b =>
      rw [spec_columns_from]
      simpa using ih (cnot_update m a b)
    | Phase p q =>
      rw [spec_columns_from]
      by_cases hp : phase_is_clifford p
      · simp [hp, ih m]
      · simp [hp, ih m]
    | _ =>
      simp only [spec_columns_from]
      simpa using ih m

/-- C5: for an H-free CNOT+Phase circuit (with distinct CNOT arguments, the
inputs on which the Rust row update cannot panic), the synthesis matrix of
`Circuit::extract_gadgets` has exactly one column per non-Clifford (odd)
phase gate in gate order, each column being the parity of that gate's qubit
at the time it fires (identity updated by row b ← row b XOR row a per
preceding CNOT); the returned matrix is the spec-described column list
restricted to the surviving rows, it has no identically-zero row, and the
qubit map lists exactly the non-zero row indices in strictly ascending
order. -/
theorem claim_C5 (c : Circuit)
    (hcp : c.gates.all is_cnot_phase_gate = true)
    (hwf : c.gates.all (fun g => match g with
      | .CNOT a b => a != b | _ => true) = true) :
    eg_columns c = spec_columns c.gates c.qubits
    ∧ (eg_columns c).length = (c.gates.filter fun g => match g with
        | .Phase p _ => !(phase_is_clifford p) | _ => false).length
    ∧ (c.extract_gadgets).2.1 = (spec_columns c.gates c.qubits).map
        (fun col => (c.extract_gadgets).1.map fun i => col.getD i false)
    ∧ (∀ i, i ∈ (c.extract_gadgets).1 ↔ i < c.qubits ∧
        ∃ col ∈ eg_columns c, col.getD i false = true)
    ∧ List.Pairwise (· < ·) (c.extract_gadgets).1
    ∧ (∀ k, k < (c.extract_gadgets).1.length →
        ∃ col ∈ (c.extract_gadgets).2.1, col.getD k false = true) := by
  have hcols : eg_columns c = spec_columns c.gates c.qubits :=
    gadget_scan_columns c.gates (id_matrix c.qubits)
  refine ⟨hcols, ?_, ?_, ?_, ?_, ?_⟩
  · rw [hcols]
    exact spec_columns_from_length c.gates (id_matrix c.qubits)
  · show eg_matrix c = _
    rw [eg_matrix, hcols]
    rfl
  · intro i
    show i ∈ eg_map c ↔ _
    rw [eg_map, List.mem_filter, List.mem_range, List.any_eq_true]
  · exact List.Pairwise.sublist (List.filter_sublist _) (List.pairwise_lt_range _)
  · intro k hk
    show ∃ col ∈ eg_matrix c, col.getD k false = true
    have hmem : (eg_map c)[k] ∈ eg_map c := List.getElem_mem _
    have hfil := List.mem_filter.mp hmem
    obtain ⟨col, hcol, hval⟩ := List.any_eq_true.mp hfil.2
    refine ⟨(eg_map c).map (fun i => col.getD i false), ?_, ?_⟩
    · exact List.mem_map.mpr ⟨col, hcol, rfl⟩
    · rw [List.getD_eq_getElem _ _ (by simpa using hk)]
      simpa using hval

/-- C5 witness: the theorem applied to the block CNOT(0,1); T(1); CNOT(0,1). -/
theorem claim_C5_witness :
    (Circuit.gates ⟨[Gate.CNOT 0 1, Gate.Phase 1 1, Gate.CNOT 0 1]⟩).all
        is_cnot_phase_gate = true
    ∧ eg_columns ⟨[Gate.CNOT 0 1, Gate.Phase 1 1, Gate.CNOT 0 1]⟩ =
        spec_columns [Gate.CNOT 0 1, Gate.Phase 1 1, Gate.CNOT 0 1]
          (Circuit.qubits ⟨[Gate.CNOT 0 1, Gate.Phase 1 1, Gate.CNOT 0 1]⟩) :=
  ⟨by decide,
   (claim_C5 ⟨[Gate.CNOT 0 1, Gate.Phase 1 1, Gate.CNOT 0 1]⟩
     (by decide) (by decide)).1⟩

/-! ### Lemmas for the block-merge optimizer -/

theorem chain_spans_le : ∀ (rb : List (ℕ × ℕ × ℕ)) (s e : ℕ), chain_spans s rb e → s ≤ e := by
  intro rb
  induction rb with
  | nil => intro s e h; exact h.le
  | cons x t ih =>
    intro s e h
    obtain ⟨_, hlt, hc⟩ := h
    exact le_trans hlt.le (ih _ _ hc)

theorem chain_spans_append (L1 L2 : List (ℕ × ℕ × ℕ)) (s e : ℕ) :
    chain_spans s (L1 ++ L2) e ↔ ∃ m, chain_spans s L1 m ∧ chain_spans m L2 e := by
  induction L1 generalizing s with
  | nil =>
    simp only [List.nil_append]
    exact ⟨fun h => ⟨s, rfl, h⟩, fun ⟨m, hm, h⟩ => hm ▸ h⟩
  | cons x t ih =>
    simp only [List.cons_append, chain_spans, List.append_eq]
    rw [ih]
    constructor
    · rintro ⟨h1, h2, m, hm, h⟩
      exact ⟨m, ⟨h1, h2, hm⟩, h⟩
    · rintro ⟨m, ⟨h1, h2, hm⟩, h⟩
      exact ⟨h1, h2, m, hm, h⟩

theorem chain_spans_bounds : ∀ (rb : List (ℕ × ℕ × ℕ)) (s e : ℕ), chain_spans s rb e →
    ∀ x ∈ rb, s ≤ x.2.1 ∧ x.2.1 < x.2.2 ∧ x.2.2 ≤ e := by
  intro rb
  induction rb with
  | nil => intro s e _ x hx; cases hx
  | cons y t ih =>
    intro s e h x hx
    obtain ⟨h1, h2, hc⟩ := h
    rcases List.mem_cons.mp hx with rfl | hx
    · exact ⟨h1.ge, h1 ▸ h2, chain_spans_le t _ _ hc⟩
    · have := ih _ _ hc x hx
      exact ⟨le_trans (h1 ▸ h2.le) this.1, this.2.1, this.2.2⟩

theorem chain_spans_cover : ∀ (rb : List (ℕ × ℕ × ℕ)) (s e : ℕ), chain_spans s rb e →
    ∀ j, s ≤ j → j < e → ∃ x ∈ rb, x.2.1 ≤ j ∧ j < x.2.2 := by
  intro rb
  induction rb with
  | nil =>
    intro s e h j h1 h2
    subst h
    omega
  | cons y t ih =>
    intro s e h j h1 h2
    obtain ⟨hs, hlt, hc⟩ := h
    by_cases hj : j < y.2.2
    · exact ⟨y, List.mem_cons_self _ _, hs ▸ h1, hj⟩
    · obtain ⟨x, hx, hx2⟩ := ih _ _ hc j (by omega) h2
      exact ⟨x, List.mem_cons_of_mem _ hx, hx2⟩

theorem span_cost_split (cs : List ℕ) (a b c : ℕ) (hab : a ≤ b) (hbc : b ≤ c) :
    span_cost cs a b + span_cost cs b c = span_cost cs a c := by
  unfold span_cost
  have h1 : c - a = (b - a) + (c - b) := by omega
  have h2 : (cs.drop a).drop (b - a) = cs.drop b := by
    rw [List.drop_drop]
    congr 1
    omega
  rw [h1, List.take_add, List.sum_append, h2]

theorem span_cost_single (cs : List ℕ) (k : ℕ) (hk : k < cs.length) :
    span_cost cs k (k + 1) = cs.getD k 0 := by
  unfold span_cost
  rw [Nat.add_sub_cancel_left, List.drop_eq_getElem_cons hk, List.getD_eq_getElem cs 0 hk,
    List.take_succ_cons, List.take_zero, List.sum_cons, List.sum_nil, Nat.add_zero]

theorem mem_le_sum (l : List ℕ) (x : ℕ) (h : x ∈ l) : x ≤ l.sum := by
  induction l with
  | nil => cases h
  | cons y t ih =>
    rcases List.mem_cons.mp h with rfl | h
    · simp only [List.sum_cons]; omega
    · have := ih h
      simp only [List.sum_cons]
      omega

theorem span_cost_mem_le (cs : List ℕ) (a b j : ℕ) (ha : a ≤ j) (hb : j < b)
    (hlen : b ≤ cs.length) : cs.getD j 0 ≤ span_cost cs a b := by
  have hj : j < cs.length := lt_of_lt_of_le hb hlen
  have hja : j - a < b - a := by omega
  have hd : j - a < (cs.drop a).length := by
    rw [List.length_drop]
    omega
  have hmem : cs[j] ∈ (cs.drop a).take (b - a) := by
    have hlt : j - a < ((cs.drop a).take (b - a)).length := by
      rw [List.length_take]
      exact lt_min hja hd
    have : ((cs.drop a).take (b - a))[j - a] = cs[j] := by
      rw [List.getElem_take, List.getElem_drop]
      congr 1
      omega
    rw [← this]
    exact List.getElem_mem _
  rw [List.getD_eq_getElem cs 0 hj]
  exact mem_le_sum _ _ hmem

theorem init_chain (l : List Circuit) : ∀ k,
    chain_spans k ((l.enumFrom k).map fun ib => (ib.2.count_hadamards, ib.1, ib.1 + 1))
      (k + l.length) := by
  induction l with
  | nil => intro k; simp [chain_spans]
  | cons b t ih =>
    intro k
    rw [List.enumFrom_cons]
    simp only [List.map_cons]
    refine ⟨rfl, Nat.lt_succ_self k, ?_⟩
    have heq : k + (b :: t).length = (k + 1) + t.length := by
      simp only [List.length_cons]
      omega
    rw [heq]
    exact ih (k + 1)

theorem init_entry (l : List Circuit) (e : ℕ × ℕ × ℕ)
    (he : e ∈ l.enum.map fun ib => (ib.2.count_hadamards, ib.1, ib.1 + 1)) :
    e.1 = span_cost (l.map Circuit.count_hadamards) e.2.1 e.2.2 ∧ e.2.2 = e.2.1 + 1 := by
  rw [List.mem_map] at he
  obtain ⟨⟨i, b⟩, hib, rfl⟩ := he
  rw [List.mem_enum_iff_getElem?] at hib
  have hi : i < l.length := by
    by_contra hc
    rw [List.getElem?_eq_none (by omega)] at hib
    cases hib
  have hb : l[i] = b := by
    rw [List.getElem?_eq_getElem hi] at hib
    injection hib
  refine ⟨?_, rfl⟩
  rw [span_cost_single _ _ (by simpa using hi)]
  rw [List.getD_eq_getElem _ 0 (by simpa using hi), List.getElem_map]
  rw [hb]

theorem accept_bounds (budget : ℕ) (rb : List (ℕ × ℕ × ℕ)) (i : ℕ)
    (h : accept budget rb i = true) :
    1 ≤ i ∧ i + 1 < rb.length ∧
      (rb.getD (i-1) (0,0,0)).1 + (rb.getD i (0,0,0)).1 + (rb.getD (i+1) (0,0,0)).1 ≤ budget := by
  simp only [accept, Bool.and_eq_true, decide_eq_true_eq] at h
  exact ⟨h.1.1, h.1.2, h.2⟩

theorem merge_at_eq (rb : List (ℕ × ℕ × ℕ)) (i : ℕ) (h1 : 1 ≤ i) (h2 : i + 1 < rb.length) :
    rb = rb.take (i-1) ++ rb[i-1] :: rb[i] :: rb[i+1] :: rb.drop (i+2)
    ∧ merge_at rb i = rb.take (i-1) ++
        ((rb[i-1]).1 + (rb[i]).1 + (rb[i+1]).1, (rb[i-1]).2.1, (rb[i+1]).2.2) ::
        rb.drop (i+2) := by
  have hi1 : i - 1 < rb.length := by omega
  have hi : i < rb.length := by omega
  have e1 : rb.drop (i-1) = rb[i-1] :: rb.drop i := by
    have := List.drop_eq_getElem_cons hi1 (l := rb)
    rwa [show i - 1 + 1 = i by omega] at this
  have e2 : rb.drop i = rb[i] :: rb.drop (i+1) := List.drop_eq_getElem_cons hi
  have e3 : rb.drop (i+1) = rb[i+1] :: rb.drop (i+2) := List.drop_eq_getElem_cons h2
  constructor
  · conv_lhs => rw [← List.take_append_drop (i-1) rb]
    rw [e1, e2, e3]
  · rw [merge_at, List.getD_eq_getElem rb (0,0,0) h2, List.getD_eq_getElem rb (0,0,0) hi,
      List.getD_eq_getElem rb (0,0,0) hi1]
    simp

theorem spans_inv_merge_at (cs : List ℕ) (budget : ℕ) (rb : List (ℕ × ℕ × ℕ)) (i : ℕ)
    (hinv : spans_inv cs budget rb) (hacc : accept budget rb i = true) :
    spans_inv cs budget (merge_at rb i) := by
  obtain ⟨hc, hcost, hbud⟩ := hinv
  obtain ⟨h1, h2, h3⟩ := accept_bounds budget rb i hacc
  obtain ⟨hdec, hmrg⟩ := merge_at_eq rb i h1 h2
  have hi1 : i - 1 < rb.length := by omega
  have hi : i < rb.length := by omega
  rw [List.getD_eq_getElem rb (0,0,0) h2, List.getD_eq_getElem rb (0,0,0) hi,
    List.getD_eq_getElem rb (0,0,0) hi1] at h3
  rw [hdec] at hc
  rw [chain_spans_append] at hc
  obtain ⟨m, hcT, hcR⟩ := hc
  obtain ⟨hx1, hx2, hcR⟩ := hcR
  obtain ⟨hy1, hy2, hcR⟩ := hcR
  obtain ⟨hz1, hz2, hcD⟩ := hcR
  have hmx : rb[i-1] ∈ rb := List.getElem_mem hi1
  have hmy : rb[i] ∈ rb := List.getElem_mem hi
  have hmz : rb[i+1] ∈ rb := List.getElem_mem h2
  refine ⟨?_, ?_, ?_⟩
  · rw [hmrg, chain_spans_append]
    refine ⟨m, hcT, hx1, ?_, ?_⟩
    · show m < (rb[i+1]).2.2
      omega
    · show chain_spans (rb[i+1]).2.2 _ _
      exact hcD
  · intro e he
    rw [hmrg] at he
    rcases List.mem_append.mp he with hT | hR
    · exact hcost e ((List.take_sublist _ _).subset hT)
    · rcases List.mem_cons.mp hR with rfl | hD
      · show _ = span_cost cs (rb[i-1]).2.1 (rb[i+1]).2.2
        rw [hcost _ hmx, hcost _ hmy, hcost _ hmz]
        rw [hy1, hz1]
        rw [span_cost_split cs (rb[i-1]).2.1 (rb[i-1]).2.2 (rb[i]).2.2 (by omega) (by omega)]
        exact span_cost_split cs (rb[i-1]).2.1 (rb[i]).2.2 (rb[i+1]).2.2 (by omega) (by omega)
      · exact hcost e ((List.drop_sublist _ _).subset hD)
  · intro e he hsp
    rw [hmrg] at he
    rcases List.mem_append.mp he with hT | hR
    · exact hbud e ((List.take_sublist _ _).subset hT) hsp
    · rcases List.mem_cons.mp hR with rfl | hD
      · exact h3
      · exact hbud e ((List.drop_sublist _ _).subset hD) hsp

theorem pass_perm_sound (budget : ℕ) (rb : List (ℕ × ℕ × ℕ)) :
    ∀ (perm : List ℕ) (i : ℕ), pass_perm budget rb perm = some i →
      accept budget rb i = true := by
  intro perm
  induction perm with
  | nil => intro i h; cases h
  | cons j t ih =>
    intro i h
    rw [pass_perm] at h
    by_cases hj : accept budget rb j = true
    · rw [if_pos hj] at h
      injection h with h
      exact h ▸ hj
    · rw [if_neg hj] at h
      exact ih i h

theorem run_attempt_inv (cs : List ℕ) (budget : ℕ) :
    ∀ (ps : List (List ℕ)) (rb : List (ℕ × ℕ × ℕ)), spans_inv cs budget rb →
      spans_inv cs budget (run_attempt budget ps rb) := by
  intro ps
  induction ps with
  | nil => intro rb h; exact h
  | cons perm t ih =>
    intro rb h
    rw [run_attempt]
    cases heq : pass_perm budget rb perm with
    | none => exact h
    | some i => exact ih _ (spans_inv_merge_at cs budget rb i h (pass_perm_sound budget rb perm i heq))

theorem pick_loop_inv (cs : List ℕ) (budget : ℕ) (perms : ℕ → List (List ℕ))
    (init : List (ℕ × ℕ × ℕ)) (hinit : spans_inv cs budget init) :
    ∀ (rem k : ℕ) (best : List (ℕ × ℕ × ℕ)), spans_inv cs budget best →
      spans_inv cs budget (pick_loop budget perms init k rem best) := by
  intro rem
  induction rem with
  | zero => intro k best hbest; exact hbest
  | succ rem ih =>
    intro k best hbest
    simp only [pick_loop]
    have hrun : spans_inv cs budget (run_attempt budget (perms k) init) :=
      run_attempt_inv cs budget (perms k) init hinit
    have hbest2 : spans_inv cs budget
        (if (run_attempt budget (perms k) init).length < best.length
         then run_attempt budget (perms k) init else best) := by
      split_ifs
      · exact hrun
      · exact hbest
    split_ifs with hone h2
    · exact hrun
    · exact ih (k+1) _ hrun
    · exact hbest
    · exact ih (k+1) _ hbest

/-- Consecutive spans concatenate to the slice they tile. -/
theorem chain_concat_flatten (blocks : List Circuit) :
    ∀ (rb : List (ℕ × ℕ × ℕ)) (s e : ℕ), chain_spans s rb e → e ≤ blocks.length →
      ((rb.map fun x => concat_blocks blocks x.2.1 x.2.2).map Circuit.gates).flatten
        = (((blocks.drop s).take (e - s)).map Circuit.gates).flatten := by
  intro rb
  induction rb with
  | nil =>
    intro s e h he
    subst h
    simp
  | cons x t ih =>
    intro s e h he
    obtain ⟨hx1, hx2, hc⟩ := h
    have hxe : x.2.2 ≤ e := chain_spans_le t _ _ hc
    have hsplit : (blocks.drop s).take (e - s)
        = (blocks.drop s).take (x.2.2 - s) ++ (blocks.drop x.2.2).take (e - x.2.2) := by
      have h1 : e - s = (x.2.2 - s) + (e - x.2.2) := by omega
      have h2 : (blocks.drop s).drop (x.2.2 - s) = blocks.drop x.2.2 := by
        rw [List.drop_drop]
        congr 1
        omega
      rw [h1, List.take_add, h2]
    simp only [List.map_cons, List.flatten_cons]
    rw [ih x.2.2 e hc he, hsplit, List.map_append, List.flatten_append]
    congr 2
    rw [concat_blocks, hx1]

/-- C10: `pick_gadgets` only regroups blocks: the front and back circuits
are untouched, each output block is the in-order concatenation of a
consecutive run of original blocks, those runs tile the original block list
in order, and the merged gate sequence of the partitioned circuit is
unchanged — for every budget, iteration count and outcome of the random
shuffles. -/
theorem claim_C10 (pc : PartitionedCircuit) (budget iters : ℕ)
    (perms : ℕ → List (List ℕ)) :
    (pc.pick_gadgets budget iters perms).front = pc.front
    ∧ (pc.pick_gadgets budget iters perms).back = pc.back
    ∧ (∃ rb : List (ℕ × ℕ × ℕ), chain_spans 0 rb pc.blocks.length ∧
        (pc.pick_gadgets budget iters perms).blocks =
          rb.map fun x => concat_blocks pc.blocks x.2.1 x.2.2)
    ∧ (pc.pick_gadgets budget iters perms).merge = pc.merge := by
  by_cases hle : pc.blocks.length ≤ 1
  · have hpg : pc.pick_gadgets budget iters perms = pc := by
      rw [PartitionedCircuit.pick_gadgets, if_pos hle]
    rw [hpg]
    refine ⟨rfl, rfl, ?_, rfl⟩
    cases hbl : pc.blocks with
    | nil => exact ⟨[], by simp [hbl, chain_spans], by simp [hbl]⟩
    | cons b t =>
      have ht : t = [] := by
        rw [hbl] at hle
        simp only [List.length_cons] at hle
        exact List.eq_nil_of_length_eq_zero (by omega)
      subst ht
      refine ⟨[(b.count_hadamards, 0, 1)], ?_, ?_⟩
      · exact ⟨rfl, Nat.one_pos, rfl⟩
      · simp [concat_blocks]
  · have hpg : pc.pick_gadgets budget iters perms =
        { front := pc.front, back := pc.back,
          blocks := (pick_loop budget perms
              (pc.blocks.enum.map fun ib => (ib.2.count_hadamards, ib.1, ib.1 + 1)) 0 iters
              (pc.blocks.enum.map fun ib => (ib.2.count_hadamards, ib.1, ib.1 + 1))).map
            fun e => concat_blocks pc.blocks e.2.1 e.2.2 } := by
      rw [PartitionedCircuit.pick_gadgets, if_neg hle]
    have hinit : spans_inv (pc.blocks.map Circuit.count_hadamards) budget
        (pc.blocks.enum.map fun ib => (ib.2.count_hadamards, ib.1, ib.1 + 1)) := by
      refine ⟨?_, ?_, ?_⟩
      · have := init_chain pc.blocks 0
        simpa using this
      · intro e he
        exact (init_entry pc.blocks e he).1
      · intro e he hsp
        have := (init_entry pc.blocks e he).2
        omega
    have hbest : spans_inv (pc.blocks.map Circuit.count_hadamards) budget
        (pick_loop budget perms
          (pc.blocks.enum.map fun ib => (ib.2.count_hadamards, ib.1, ib.1 + 1)) 0 iters
          (pc.blocks.enum.map fun ib => (ib.2.count_hadamards, ib.1, ib.1 + 1))) :=
      pick_loop_inv _ budget perms _ hinit iters 0 _ hinit
    have hchain : chain_spans 0 (pick_loop budget perms
          (pc.blocks.enum.map fun ib => (ib.2.count_hadamards, ib.1, ib.1 + 1)) 0 iters
          (pc.blocks.enum.map fun ib => (ib.2.count_hadamards, ib.1, ib.1 + 1)))
        pc.blocks.length := by
      have := hbest.1
      simpa using this
    refine ⟨by rw [hpg], by rw [hpg], ⟨_, hchain, by rw [hpg]⟩, ?_⟩
    rw [hpg]
    show Circuit.mk _ = Circuit.mk _
    congr 1
    simp only [PartitionedCircuit.merge]
    congr 2
    have := chain_concat_flatten pc.blocks _ 0 pc.blocks.length hchain le_rfl
    rw [this]
    simp

/-- The Hadamard count of a concatenated run is the total cost of its span. -/
theorem count_concat (blocks : List Circuit) (a b : ℕ) :
    (concat_blocks blocks a b).count_hadamards
      = span_cost (blocks.map Circuit.count_hadamards) a b := by
  rw [concat_blocks, Circuit.count_hadamards, span_cost]
  simp only [List.filter_flatten, List.length_flatten, List.map_map, List.map_take,
    List.map_drop]
  rfl

/-- A single-block span concatenates to that original block. -/
theorem concat_single (blocks : List Circuit) (a : ℕ) (ha : a < blocks.length) :
    concat_blocks blocks a (a + 1) = blocks[a] := by
  rw [concat_blocks, Nat.add_sub_cancel_left, List.drop_eq_getElem_cons ha,
    List.take_succ_cons, List.take_zero]
  simp

/-- C8: `pick_gadgets` accepts a merge only when the three adjacent blocks'
combined Hadamard count is within budget; consequently every emitted block
is either within budget or one of the original blocks unchanged, and an
original block whose own count exceeds the budget is emitted unmerged,
never dropped — for every budget, iteration count, partitioned circuit and
outcome of the random shuffles. -/
theorem claim_C8 (pc : PartitionedCircuit) (budget iters : ℕ)
    (perms : ℕ → List (List ℕ)) :
    (∀ nb ∈ (pc.pick_gadgets budget iters perms).blocks,
        nb.count_hadamards ≤ budget ∨ nb ∈ pc.blocks)
    ∧ (∀ j, j < pc.blocks.length →
        budget < (pc.blocks.getD j ⟨[]⟩).count_hadamards →
        pc.blocks.getD j ⟨[]⟩ ∈ (pc.pick_gadgets budget iters perms).blocks)
    ∧ (∀ (rb : List (ℕ × ℕ × ℕ)) (perm : List ℕ) (i : ℕ),
        pass_perm budget rb perm = some i →
        (rb.getD (i-1) (0,0,0)).1 + (rb.getD i (0,0,0)).1 +
          (rb.getD (i+1) (0,0,0)).1 ≤ budget) := by
  refine ⟨?_, ?_, ?_⟩
  · by_cases hle : pc.blocks.length ≤ 1
    · rw [PartitionedCircuit.pick_gadgets, if_pos hle]
      intro nb hnb
      exact Or.inr hnb
    · rw [PartitionedCircuit.pick_gadgets, if_neg hle]
      intro nb hnb
      simp only [List.mem_map] at hnb
      obtain ⟨e, he, rfl⟩ := hnb
      have hinit : spans_inv (pc.blocks.map Circuit.count_hadamards) budget
          (pc.blocks.enum.map fun ib => (ib.2.count_hadamards, ib.1, ib.1 + 1)) := by
        refine ⟨by simpa using init_chain pc.blocks 0,
          fun e he => (init_entry pc.blocks e he).1,
          fun e he hsp => ?_⟩
        have := (init_entry pc.blocks e he).2
        omega
      have hbest := pick_loop_inv _ budget perms _ hinit iters 0 _ hinit
      have hbnd := chain_spans_bounds _ _ _ hbest.1 e he
      rcases Nat.lt_or_ge e.2.1.succ e.2.2 with hsp | hsp
      · left
        rw [count_concat, ← hbest.2.1 e he]
        exact hbest.2.2 e he (by omega)
      · have hb1 : e.2.2 = e.2.1 + 1 := by omega
        have ha : e.2.1 < pc.blocks.length := by
          have := hbnd.2.2
          simp only [List.length_map] at hbnd ⊢
          omega
        right
        rw [hb1, concat_single pc.blocks e.2.1 ha]
        exact List.getElem_mem ha
  · by_cases hle : pc.blocks.length ≤ 1
    · rw [PartitionedCircuit.pick_gadgets, if_pos hle]
      intro j hj _
      rw [List.getD_eq_getElem _ _ hj]
      exact List.getElem_mem hj
    · rw [PartitionedCircuit.pick_gadgets, if_neg hle]
      intro j hj hcnt
      have hinit : spans_inv (pc.blocks.map Circuit.count_hadamards) budget
          (pc.blocks.enum.map fun ib => (ib.2.count_hadamards, ib.1, ib.1 + 1)) := by
        refine ⟨by simpa using init_chain pc.blocks 0,
          fun e he => (init_entry pc.blocks e he).1,
          fun e he hsp => ?_⟩
        have := (init_entry pc.blocks e he).2
        omega
      have hbest := pick_loop_inv _ budget perms _ hinit iters 0 _ hinit
      obtain ⟨e, he, hej⟩ := chain_spans_cover _ _ _ hbest.1 j (by omega)
        (by simpa using hj)
      have hbnd := chain_spans_bounds _ _ _ hbest.1 e he
      have hcs : (pc.blocks.map Circuit.count_hadamards).getD j 0
          = (pc.blocks.getD j ⟨[]⟩).count_hadamards := by
        rw [List.getD_eq_getElem _ _ (by simpa using hj), List.getD_eq_getElem _ _ hj,
          List.getElem_map]
      have hsp : e.2.2 = e.2.1 + 1 := by
        by_contra hne
        have hge : e.2.1 + 2 ≤ e.2.2 := by omega
        have hle2 := hbest.2.2 e he hge
        have hcost := hbest.2.1 e he
        have hmem := span_cost_mem_le (pc.blocks.map Circuit.count_hadamards)
          e.2.1 e.2.2 j hej.1 hej.2 (by simpa using hbnd.2.2)
        rw [hcs] at hmem
        omega
      have haj : e.2.1 = j := by omega
      simp only [List.mem_map]
      refine ⟨e, he, ?_⟩
      rw [hsp, haj, concat_single pc.blocks j hj, List.getD_eq_getElem _ _ hj]
  · intro rb perm i hpp
    exact (accept_bounds budget rb i (pass_perm_sound budget rb perm i hpp)).2.2

/-- C8 witness: with blocks of Hadamard costs 1, 0, 3, budget 2, one
iteration and the junction list [1], the only merge is rejected and the
over-budget third block is emitted unchanged. -/
theorem claim_C8_witness :
    (2 : ℕ) < 3 ∧
    Circuit.count_hadamards ⟨[Gate.H 0, Gate.H 1, Gate.H 2]⟩ = 3 ∧
    (List.getD [(⟨[Gate.H 0]⟩ : Circuit), ⟨[]⟩, ⟨[Gate.H 0, Gate.H 1, Gate.H 2]⟩] 2 ⟨[]⟩) ∈
      (PartitionedCircuit.pick_gadgets
        ⟨⟨[]⟩, ⟨[]⟩, [⟨[Gate.H 0]⟩, ⟨[]⟩, ⟨[Gate.H 0, Gate.H 1, Gate.H 2]⟩]⟩
        2 1 (fun _ => [[1]])).blocks :=
  ⟨by decide, by decide,
   (claim_C8 ⟨⟨[]⟩, ⟨[]⟩, [⟨[Gate.H 0]⟩, ⟨[]⟩, ⟨[Gate.H 0, Gate.H 1, Gate.H 2]⟩]⟩
     2 1 (fun _ => [[1]])).2.1 2 (by decide) (by decide)⟩

/-! ### Lemmas for Clifford extraction -/

theorem overlaps_iff (g h : Gate) :
    g.overlaps h = true ↔ ∃ a ∈ g.qubit_list, ∃ b ∈ h.qubit_list, a = b := by
  unfold Gate.overlaps
  rw [List.any_eq_true]
  constructor
  · rintro ⟨a, ha, hab⟩
    rw [List.any_eq_true] at hab
    obtain ⟨b, hb, hab⟩ := hab
    exact ⟨a, ha, b, hb, by simpa using hab⟩
  · rintro ⟨a, ha, b, hb, rfl⟩
    exact ⟨a, ha, by rw [List.any_eq_true]; exact ⟨a, hb, by simp⟩⟩

theorem overlaps_symm (g h : Gate) : g.overlaps h = h.overlaps g := by
  rw [Bool.eq_iff_iff, overlaps_iff, overlaps_iff]
  constructor
  · rintro ⟨a, ha, b, hb, rfl⟩
    exact ⟨a, hb, a, ha, rfl⟩
  · rintro ⟨a, ha, b, hb, rfl⟩
    exact ⟨a, hb, a, ha, rfl⟩

theorem find_pull_none (pred : Gate → Bool) :
    ∀ (l pre : List Gate), find_pull pred pre l = none →
      ∀ A g B, l = A ++ g :: B → pred g = true →
        ∃ h ∈ pre.reverse ++ A, g.overlaps h = true := by
  intro l
  induction l with
  | nil =>
    intro pre _ A g B hsplit _
    exact absurd hsplit (by simp)
  | cons x rest ih =>
    intro pre hnone A g B hsplit hg
    rw [find_pull] at hnone
    by_cases hcond : (pred x && pre.all fun h => !(x.overlaps h)) = true
    · rw [if_pos hcond] at hnone
      cases hnone
    · rw [if_neg hcond] at hnone
      cases A with
      | nil =>
        simp only [List.nil_append, List.cons.injEq] at hsplit
        obtain ⟨rfl, rfl⟩ := hsplit
        have hall : (pre.all fun h => !(x.overlaps h)) ≠ true := by
          intro hcontra
          exact hcond (by rw [Bool.and_eq_true]; exact ⟨hg, hcontra⟩)
        have hex : ∃ h ∈ pre, x.overlaps h = true := by
          by_contra hno
          push_neg at hno
          apply hall
          rw [List.all_eq_true]
          intro h hh
          have hfalse := hno h hh
          simp only [Bool.not_eq_true] at hfalse
          simp [hfalse]
        obtain ⟨h, hh, hov⟩ := hex
        exact ⟨h, List.mem_append.mpr (Or.inl (List.mem_reverse.mpr hh)), hov⟩
      | cons y A' =>
        simp only [List.cons_append, List.cons.injEq] at hsplit
        obtain ⟨rfl, hsplit⟩ := hsplit
        obtain ⟨h, hh, hov⟩ := ih (x :: pre) hnone A' g B hsplit hg
        refine ⟨h, ?_, hov⟩
        rw [List.reverse_cons, List.append_assoc] at hh
        rcases List.mem_append.mp hh with h1 | h2
        · exact List.mem_append.mpr (Or.inl h1)
        · simp only [List.cons_append, List.nil_append] at h2
          rcases List.mem_cons.mp h2 with rfl | h3
          · exact List.mem_append.mpr (Or.inr (List.mem_cons_self _ _))
          · exact List.mem_append.mpr (Or.inr (List.mem_cons_of_mem _ h3))

theorem find_pull_some (pred : Gate → Bool) :
    ∀ (l pre : List Gate) (g : Gate) (rest : List Gate),
      find_pull pred pre l = some (g, rest) →
      ∃ A B, l = A ++ g :: B ∧ rest = pre.reverse ++ (A ++ B) ∧ pred g = true ∧
        ∀ h ∈ pre.reverse ++ A, g.overlaps h = false := by
  intro l
  induction l with
  | nil => intro pre g rest h; cases h
  | cons x rest' ih =>
    intro pre g rest hsome
    rw [find_pull] at hsome
    by_cases hcond : (pred x && pre.all fun h => !(x.overlaps h)) = true
    · rw [if_pos hcond] at hsome
      injection hsome with hsome
      obtain ⟨rfl, rfl⟩ : x = g ∧ pre.reverse ++ rest' = rest := by
        constructor
        · exact congrArg Prod.fst hsome
        · exact congrArg Prod.snd hsome
      rw [Bool.and_eq_true] at hcond
      refine ⟨[], rest', by simp, by simp, hcond.1, ?_⟩
      intro h hh
      simp only [List.append_nil] at hh
      have := List.all_eq_true.mp hcond.2 h (List.mem_reverse.mp hh)
      simpa using this
    · rw [if_neg hcond] at hsome
      obtain ⟨A', B, hsplit, hrest, hg, hall⟩ := ih (x :: pre) g rest hsome
      refine ⟨x :: A', B, by rw [hsplit]; rfl, ?_, hg, ?_⟩
      · rw [hrest, List.reverse_cons, List.append_assoc]
        rfl
      · intro h hh
        apply hall
        rw [List.reverse_cons, List.append_assoc]
        rcases List.mem_append.mp hh with h1 | h2
        · exact List.mem_append.mpr (Or.inl h1)
        · rcases List.mem_cons.mp h2 with rfl | h3
          · exact List.mem_append.mpr (Or.inr (List.mem_cons_self _ _))
          · exact List.mem_append.mpr (Or.inr (List.mem_cons_of_mem _ h3))

theorem pull_no_eligible (pred : Gate → Bool) :
    ∀ (fuel : ℕ) (gates : List Gate), gates.length ≤ fuel →
      ∀ A g B, (pull_gates_fuel pred fuel gates).2 = A ++ g :: B → pred g = true →
        ∃ h ∈ A, g.overlaps h = true := by
  intro fuel
  induction fuel with
  | zero =>
    intro gates hlen A g B hsplit _
    have : gates = [] := List.eq_nil_of_length_eq_zero (by omega)
    subst this
    rw [pull_gates_fuel] at hsplit
    exact absurd hsplit (by simp)
  | succ fuel ih =>
    intro gates hlen A g B hsplit hg
    rw [pull_gates_fuel] at hsplit
    cases heq : find_pull pred [] gates with
    | none =>
      rw [heq] at hsplit
      simp only at hsplit
      have := find_pull_none pred gates [] heq A g B hsplit hg
      simpa using this
    | some gr =>
      rw [heq] at hsplit
      simp only at hsplit
      obtain ⟨A0, B0, hdec, hrest, _, _⟩ := find_pull_some pred gates [] gr.1 gr.2 heq
      have hlen2 : gr.2.length ≤ fuel := by
        have h1 : gates.length = A0.length + B0.length + 1 := by
          rw [hdec]
          simp only [List.length_append, List.length_cons]
          omega
        have h2 : gr.2.length = A0.length + B0.length := by
          rw [hrest]
          simp
        omega
      exact ih gr.2 hlen2 A g B hsplit hg

theorem removal_preserves_later (pred : Gate → Bool) (A0 : List Gate) (g0 : Gate)
    (B0 : List Gate) (hg0 : ∀ h ∈ A0, g0.overlaps h = false)
    (hP : ∀ A g B, A0 ++ g0 :: B0 = A ++ g :: B → pred g = true →
      ∃ h ∈ B, g.overlaps h = true) :
    ∀ A g B, A0 ++ B0 = A ++ g :: B → pred g = true →
      ∃ h ∈ B, g.overlaps h = true := by
  intro A g B hsplit hg
  rcases List.append_eq_append_iff.mp hsplit with ⟨t, hA, hB0⟩ | ⟨t, hA0, hgB⟩
  · -- g sits inside B0 : B0 = t ++ g :: B, A = A0 ++ t
    obtain ⟨h, hh, hov⟩ := hP (A0 ++ g0 :: t) g B (by rw [hB0]; simp) hg
    exact ⟨h, hh, hov⟩
  · -- A0 = A ++ t and g :: B = t ++ B0
    cases t with
    | nil =>
      -- g is the head of B0
      simp only [List.nil_append] at hgB hA0
      subst hgB
      obtain ⟨h, hh, hov⟩ := hP (A0 ++ [g0]) g B (by simp) hg
      exact ⟨h, hh, hov⟩
    | cons g' t' =>
      simp only [List.cons_append] at hgB
      injection hgB with h1 ht
      subst h1
      obtain ⟨h, hh, hov⟩ := hP A g (t' ++ g0 :: B0) (by rw [hA0]; simp) hg
      rcases List.mem_append.mp hh with h1 | h2
      · exact ⟨h, ht ▸ List.mem_append.mpr (Or.inl h1), hov⟩
      · rcases List.mem_cons.mp h2 with rfl | h3
        · exfalso
          have hmem : g ∈ A0 := by
            rw [hA0]
            exact List.mem_append.mpr (Or.inr (List.mem_cons_self _ _))
          have := hg0 g hmem
          rw [overlaps_symm] at hov
          rw [this] at hov
          cases hov
        · exact ⟨h, ht ▸ List.mem_append.mpr (Or.inr h3), hov⟩

theorem pull_preserves_later (pred : Gate → Bool) :
    ∀ (fuel : ℕ) (gates : List Gate),
      (∀ A g B, gates = A ++ g :: B → pred g = true → ∃ h ∈ B, g.overlaps h = true) →
      ∀ A g B, (pull_gates_fuel pred fuel gates).2 = A ++ g :: B → pred g = true →
        ∃ h ∈ B, g.overlaps h = true := by
  intro fuel
  induction fuel with
  | zero =>
    intro gates hP A g B hsplit hg
    rw [pull_gates_fuel] at hsplit
    exact hP A g B hsplit hg
  | succ fuel ih =>
    intro gates hP A g B hsplit hg
    rw [pull_gates_fuel] at hsplit
    cases heq : find_pull pred [] gates with
    | none =>
      rw [heq] at hsplit
      exact hP A g B hsplit hg
    | some gr =>
      rw [heq] at hsplit
      simp only at hsplit
      obtain ⟨A0, B0, hdec, hrest, hpg, hall⟩ := find_pull_some pred gates [] gr.1 gr.2 heq
      simp only [List.reverse_nil, List.nil_append] at hrest hall
      have hP2 : ∀ A g B, gr.2 = A ++ g :: B → pred g = true →
          ∃ h ∈ B, g.overlaps h = true := by
        rw [hrest]
        exact removal_preserves_later pred A0 gr.1 B0 hall
          (fun A g B hs => hP A g B (hdec ▸ hs))
      exact ih gr.2 hP2 A g B hsplit hg

/-- C9: after `extract_cliffords`, the remaining sequence is a fixed point
of the greedy rule in both directions: no remaining gate is Clifford and
qubit-disjoint from every earlier remaining gate, and none is Clifford and
qubit-disjoint from every later remaining gate. -/
theorem claim_C9 (c : Circuit) :
    ∀ A g B, (c.extract_cliffords).2.2.gates = A ++ g :: B → g.is_clifford = true →
      (∃ h ∈ A, g.overlaps h = true) ∧ (∃ h ∈ B, g.overlaps h = true) := by
  intro A g B hsplit hg
  have hrestEq : (c.extract_cliffords).2.2.gates =
      (pull_gates_fuel Gate.is_clifford
        (pull_gates_fuel Gate.is_clifford c.gates.length c.gates).2.reverse.length
        (pull_gates_fuel Gate.is_clifford c.gates.length c.gates).2.reverse).2.reverse := rfl
  have hE1 : ∀ A g B, (pull_gates_fuel Gate.is_clifford c.gates.length c.gates).2
      = A ++ g :: B → g.is_clifford = true → ∃ h ∈ A, g.overlaps h = true :=
    fun A g B h hg => pull_no_eligible _ c.gates.length c.gates le_rfl A g B h hg
  have hL1 : ∀ A g B, (pull_gates_fuel Gate.is_clifford c.gates.length c.gates).2.reverse
      = A ++ g :: B → g.is_clifford = true → ∃ h ∈ B, g.overlaps h = true := by
    intro A g B h hg
    have hsplit1 : (pull_gates_fuel Gate.is_clifford c.gates.length c.gates).2
        = B.reverse ++ g :: A.reverse := by
      have h2 := congrArg List.reverse h
      rw [List.reverse_reverse] at h2
      rw [h2]
      simp
    obtain ⟨h0, hh0, hov⟩ := hE1 B.reverse g A.reverse hsplit1 hg
    exact ⟨h0, List.mem_reverse.mp hh0, hov⟩
  have hL2 := pull_preserves_later Gate.is_clifford
    (pull_gates_fuel Gate.is_clifford c.gates.length c.gates).2.reverse.length
    (pull_gates_fuel Gate.is_clifford c.gates.length c.gates).2.reverse hL1
  have hE2 := pull_no_eligible Gate.is_clifford
    (pull_gates_fuel Gate.is_clifford c.gates.length c.gates).2.reverse.length
    (pull_gates_fuel Gate.is_clifford c.gates.length c.gates).2.reverse le_rfl
  rw [hrestEq] at hsplit
  have hsplit2 : (pull_gates_fuel Gate.is_clifford
      (pull_gates_fuel Gate.is_clifford c.gates.length c.gates).2.reverse.length
      (pull_gates_fuel Gate.is_clifford c.gates.length c.gates).2.reverse).2
      = B.reverse ++ g :: A.reverse := by
    have h2 := congrArg List.reverse hsplit
    rw [List.reverse_reverse] at h2
    rw [h2]
    simp
  constructor
  · obtain ⟨h0, hh0, hov⟩ := hL2 B.reverse g A.reverse hsplit2 hg
    exact ⟨h0, List.mem_reverse.mp hh0, hov⟩
  · obtain ⟨h0, hh0, hov⟩ := hE2 B.reverse g A.reverse hsplit2 hg
    exact ⟨h0, List.mem_reverse.mp hh0, hov⟩

/-- C9 witness: [T(0), H(0), T(0)] survives `extract_cliffords` unchanged;
the Clifford H(0) in the middle overlaps a T on both sides. -/
theorem claim_C9_witness :
    (∃ h ∈ [Gate.Phase 1 0], (Gate.H 0).overlaps h = true) ∧
    (∃ h ∈ [Gate.Phase 1 0], (Gate.H 0).overlaps h = true) :=
  claim_C9 ⟨[Gate.Phase 1 0, Gate.H 0, Gate.Phase 1 0]⟩
    [Gate.Phase 1 0] (Gate.H 0) [Gate.Phase 1 0] (by decide) (by decide)

/-! ### Lemmas for the phase-polynomial accumulation loop -/

theorem add_upd_same (s : ℕ × ℕ × ℕ → ℕ) (p : ℕ × ℕ × ℕ) (x : ℕ) :
    add_upd s p x p = (s p + x) % 8 := by
  rw [add_upd, upd_same]

theorem add_upd_ne (s : ℕ × ℕ × ℕ → ℕ) (p q : ℕ × ℕ × ℕ) (x : ℕ) (h : q ≠ p) :
    add_upd s p x q = s q := by
  rw [add_upd, upd_ne _ _ _ _ h]

/-- In a fold over `range n`, the value at a point touched only by
iteration i0 is the value produced by iteration i0. -/
theorem fold_range_at (step : (ℕ × ℕ × ℕ → ℕ) → ℕ → ℕ × ℕ × ℕ → ℕ)
    (p : ℕ × ℕ × ℕ) (i0 : ℕ)
    (hp : ∀ s i, i ≠ i0 → step s i p = s p) :
    ∀ n, i0 < n → ∀ s, ((List.range n).foldl step s) p
      = step ((List.range i0).foldl step s) i0 p := by
  intro n
  induction n with
  | zero => intro h; omega
  | succ m ihm =>
    intro hi s
    rw [List.range_succ, List.foldl_append]
    simp only [List.foldl_cons, List.foldl_nil]
    by_cases him : i0 = m
    · subst him
      rfl
    · rw [hp _ m (fun h => him h.symm)]
      exact ihm (by omega) s

/-- A fold over `range n` leaves untouched points unchanged. -/
theorem fold_range_pres (step : (ℕ × ℕ × ℕ → ℕ) → ℕ → ℕ × ℕ × ℕ → ℕ)
    (p : ℕ × ℕ × ℕ) (n : ℕ)
    (hp : ∀ s i, i < n → step s i p = s p) (s : ℕ × ℕ × ℕ → ℕ) :
    ((List.range n).foldl step s) p = s p :=
  foldl_pres_pt step (List.range n) p (fun s i hi => hp s i (List.mem_range.mp hi)) s

theorem poly_kstep_pres (M : BMatrix) (l i j : ℕ) (s : ℕ × ℕ × ℕ → ℕ) (k : ℕ)
    (p : ℕ × ℕ × ℕ) (h : p ≠ (i, j, k)) : poly_kstep M l i j s k p = s p :=
  add_upd_ne _ _ _ _ h

theorem poly_kfold_at (M : BMatrix) (l i j k0 : ℕ) (hk : k0 < j) (s : ℕ × ℕ × ℕ → ℕ) :
    ((List.range j).foldl (poly_kstep M l i j) s) (i, j, k0)
      = (s (i, j, k0) + c3v M l i j k0) % 8 := by
  rw [fold_range_at (poly_kstep M l i j) (i, j, k0) k0
    (fun s k hkk => poly_kstep_pres M l i j s k _
      (by simp only [ne_eq, Prod.mk.injEq]; omega)) j hk s]
  rw [poly_kstep, add_upd_same]
  rw [fold_range_pres (poly_kstep M l i j) (i, j, k0) k0
    (fun s k hkk => poly_kstep_pres M l i j s k _
      (by simp only [ne_eq, Prod.mk.injEq]; omega)) s]

theorem poly_kfold_pres (M : BMatrix) (l i j : ℕ) (s : ℕ × ℕ × ℕ → ℕ)
    (p : ℕ × ℕ × ℕ) (h : ∀ k, k < j → p ≠ (i, j, k)) :
    ((List.range j).foldl (poly_kstep M l i j) s) p = s p :=
  fold_range_pres _ p j (fun s k hk => poly_kstep_pres M l i j s k p (h k hk)) s

theorem poly_jstep_pres (M : BMatrix) (l i : ℕ) (s : ℕ × ℕ × ℕ → ℕ) (j : ℕ)
    (p : ℕ × ℕ × ℕ) (hq : p ≠ (i, j, j)) (hc : ∀ k, k < j → p ≠ (i, j, k)) :
    poly_jstep M l i s j p = s p := by
  rw [poly_jstep, add_upd_ne _ _ _ _ hq]
  exact poly_kfold_pres M l i j s p hc

theorem poly_jstep_at_quad (M : BMatrix) (l i j : ℕ) (s : ℕ × ℕ × ℕ → ℕ) :
    poly_jstep M l i s j (i, j, j) = (s (i, j, j) + c2v M l i j) % 8 := by
  rw [poly_jstep, add_upd_same]
  rw [poly_kfold_pres M l i j s (i, j, j)
    (fun k hk => by simp only [ne_eq, Prod.mk.injEq]; omega)]

theorem poly_jstep_at_cubic (M : BMatrix) (l i j k : ℕ) (hk : k < j)
    (s : ℕ × ℕ × ℕ → ℕ) :
    poly_jstep M l i s j (i, j, k) = (s (i, j, k) + c3v M l i j k) % 8 := by
  rw [poly_jstep, add_upd_ne _ _ _ _ (by simp only [ne_eq, Prod.mk.injEq]; omega)]
  exact poly_kfold_at M l i j k hk s

theorem poly_istep_pres_fst (M : BMatrix) (l : ℕ) (s : ℕ × ℕ × ℕ → ℕ) (i : ℕ)
    (p : ℕ × ℕ × ℕ) (h : p.1 ≠ i) : poly_istep M l s i p = s p := by
  rw [poly_istep, add_upd_ne _ _ _ _ (by
    intro hEq
    apply h
    rw [hEq])]
  refine fold_range_pres _ p i (fun s j hj => ?_) s
  refine poly_jstep_pres M l i s j p (by
      intro hEq
      apply h
      rw [hEq]) (fun k hk => by
      intro hEq
      apply h
      rw [hEq])

theorem poly_istep_at_diag (M : BMatrix) (l i : ℕ) (s : ℕ × ℕ × ℕ → ℕ) :
    poly_istep M l s i (i, i, i) = (s (i, i, i) + c1v M l i) % 8 := by
  rw [poly_istep, add_upd_same]
  rw [fold_range_pres _ (i, i, i) i (fun s j hj =>
    poly_jstep_pres M l i s j _ (by simp only [ne_eq, Prod.mk.injEq]; omega)
      (fun k hk => by simp only [ne_eq, Prod.mk.injEq]; omega)) s]

theorem poly_istep_at_quad (M : BMatrix) (l i j : ℕ) (hj : j < i) (s : ℕ × ℕ × ℕ → ℕ) :
    poly_istep M l s i (i, j, j) = (s (i, j, j) + c2v M l i j) % 8 := by
  rw [poly_istep, add_upd_ne _ _ _ _ (by simp only [ne_eq, Prod.mk.injEq]; omega)]
  rw [fold_range_at (poly_jstep M l i) (i, j, j) j
    (fun s j' hj' => poly_jstep_pres M l i s j' _
      (by simp only [ne_eq, Prod.mk.injEq]; omega)
      (fun k hk => by simp only [ne_eq, Prod.mk.injEq]; omega)) i hj s]
  rw [poly_jstep_at_quad]
  rw [fold_range_pres (poly_jstep M l i) (i, j, j) j
    (fun s j' hj' => poly_jstep_pres M l i s j' _
      (by simp only [ne_eq, Prod.mk.injEq]; omega)
      (fun k hk => by simp only [ne_eq, Prod.mk.injEq]; omega)) s]

theorem poly_istep_at_cubic (M : BMatrix) (l i j k : ℕ) (hk : k < j) (hj : j < i)
    (s : ℕ × ℕ × ℕ → ℕ) :
    poly_istep M l s i (i, j, k) = (s (i, j, k) + c3v M l i j k) % 8 := by
  rw [poly_istep, add_upd_ne _ _ _ _ (by simp only [ne_eq, Prod.mk.injEq]; omega)]
  rw [fold_range_at (poly_jstep M l i) (i, j, k) j
    (fun s j' hj' => poly_jstep_pres M l i s j' _
      (by simp only [ne_eq, Prod.mk.injEq]; omega)
      (fun k' hk' => by simp only [ne_eq, Prod.mk.injEq]; omega)) i hj s]
  rw [poly_jstep_at_cubic M l i j k hk]
  rw [fold_range_pres (poly_jstep M l i) (i, j, k) j
    (fun s j' hj' => poly_jstep_pres M l i s j' _
      (by simp only [ne_eq, Prod.mk.injEq]; omega)
      (fun k' hk' => by simp only [ne_eq, Prod.mk.injEq]; omega)) s]

theorem poly_istep_pres_other (M : BMatrix) (l : ℕ) (s : ℕ × ℕ × ℕ → ℕ) (i y z : ℕ)
    (hnd : ¬(y = i ∧ z = i)) (hnq : ¬(y < i ∧ z = y)) (hnc : ¬(z < y ∧ y < i)) :
    poly_istep M l s i (i, y, z) = s (i, y, z) := by
  rw [poly_istep, add_upd_ne _ _ _ _ (by simp only [ne_eq, Prod.mk.injEq]; omega)]
  refine fold_range_pres _ (i, y, z) i (fun s j hj => ?_) s
  exact poly_jstep_pres M l i s j _
    (by simp only [ne_eq, Prod.mk.injEq]; omega)
    (fun k hk => by simp only [ne_eq, Prod.mk.injEq]; omega)

theorem poly_body_at_diag (M : BMatrix) (l i : ℕ) (hi : i < M.n) (s : ℕ × ℕ × ℕ → ℕ) :
    poly_body M l s (i, i, i) = (s (i, i, i) + c1v M l i) % 8 := by
  rw [poly_body, fold_range_at (poly_istep M l) (i, i, i) i
    (fun s i' hi' => poly_istep_pres_fst M l s i' _ (by simpa using (Ne.symm hi')))
    M.n hi s]
  rw [poly_istep_at_diag]
  rw [fold_range_pres (poly_istep M l) (i, i, i) i
    (fun s i' hi' => poly_istep_pres_fst M l s i' _ (by simp; omega)) s]

theorem poly_body_at_quad (M : BMatrix) (l i j : ℕ) (hj : j < i) (hi : i < M.n)
    (s : ℕ × ℕ × ℕ → ℕ) :
    poly_body M l s (i, j, j) = (s (i, j, j) + c2v M l i j) % 8 := by
  rw [poly_body, fold_range_at (poly_istep M l) (i, j, j) i
    (fun s i' hi' => poly_istep_pres_fst M l s i' _ (by simpa using (Ne.symm hi')))
    M.n hi s]
  rw [poly_istep_at_quad M l i j hj]
  rw [fold_range_pres (poly_istep M l) (i, j, j) i
    (fun s i' hi' => poly_istep_pres_fst M l s i' _ (by simp; omega)) s]

theorem poly_body_at_cubic (M : BMatrix) (l i j k : ℕ) (hk : k < j) (hj : j < i)
    (hi : i < M.n) (s : ℕ × ℕ × ℕ → ℕ) :
    poly_body M l s (i, j, k) = (s (i, j, k) + c3v M l i j k) % 8 := by
  rw [poly_body, fold_range_at (poly_istep M l) (i, j, k) i
    (fun s i' hi' => poly_istep_pres_fst M l s i' _ (by simpa using (Ne.symm hi')))
    M.n hi s]
  rw [poly_istep_at_cubic M l i j k hk hj]
  rw [fold_range_pres (poly_istep M l) (i, j, k) i
    (fun s i' hi' => poly_istep_pres_fst M l s i' _ (by simp; omega)) s]

theorem poly_body_pres (M : BMatrix) (l : ℕ) (s : ℕ × ℕ × ℕ → ℕ) (x y z : ℕ)
    (hout : ¬(x < M.n ∧ ((y = x ∧ z = x) ∨ (y < x ∧ z = y) ∨ (z < y ∧ y < x)))) :
    poly_body M l s (x, y, z) = s (x, y, z) := by
  refine fold_range_pres _ (x, y, z) M.n (fun s i hi => ?_) s
  by_cases hxi : x = i
  · subst hxi
    exact poly_istep_pres_other M l s x y z
      (fun h => hout ⟨hi, Or.inl h⟩)
      (fun h => hout ⟨hi, Or.inr (Or.inl h)⟩)
      (fun h => hout ⟨hi, Or.inr (Or.inr h)⟩)
  · exact poly_istep_pres_fst M l s i _ hxi

theorem poly_init_cubic (M : BMatrix) (i j k : ℕ) (hk : k < j) (hj : j < i)
    (hi : i < M.n) :
    poly_init M (i, j, k) = ((List.range M.r).map fun l => c3v M l i j k).sum % 8 := by
  rw [poly_init]
  generalize M.r = r
  induction r with
  | zero => simp
  | succ r ihr =>
    rw [List.range_succ, List.foldl_append, List.map_append]
    simp only [List.foldl_cons, List.foldl_nil, List.map_cons, List.map_nil,
      List.sum_append, List.sum_cons, List.sum_nil]
    rw [poly_body_at_cubic M r i j k hk hj hi, ihr]
    omega

theorem poly_init_quad (M : BMatrix) (i j : ℕ) (hj : j < i) (hi : i < M.n) :
    poly_init M (i, j, j) = ((List.range M.r).map fun l => c2v M l i j).sum % 8 := by
  rw [poly_init]
  generalize M.r = r
  induction r with
  | zero => simp
  | succ r ihr =>
    rw [List.range_succ, List.foldl_append, List.map_append]
    simp only [List.foldl_cons, List.foldl_nil, List.map_cons, List.map_nil,
      List.sum_append, List.sum_cons, List.sum_nil]
    rw [poly_body_at_quad M r i j hj hi, ihr]
    omega

theorem poly_init_diag (M : BMatrix) (i : ℕ) (hi : i < M.n) :
    poly_init M (i, i, i) = ((List.range M.r).map fun l => c1v M l i).sum % 8 := by
  rw [poly_init]
  generalize M.r = r
  induction r with
  | zero => simp
  | succ r ihr =>
    rw [List.range_succ, List.foldl_append, List.map_append]
    simp only [List.foldl_cons, List.foldl_nil, List.map_cons, List.map_nil,
      List.sum_append, List.sum_cons, List.sum_nil]
    rw [poly_body_at_diag M r i hi, ihr]
    omega

theorem poly_init_other (M : BMatrix) (x y z : ℕ)
    (hout : ¬(x < M.n ∧ ((y = x ∧ z = x) ∨ (y < x ∧ z = y) ∨ (z < y ∧ y < x)))) :
    poly_init M (x, y, z) = 0 := by
  rw [poly_init]
  refine foldl_pres_pt _ _ _ (fun s l _ => ?_) _
  exact poly_body_pres M l s x y z hout

theorem foldl_xor_toNat : ∀ (L : List Bool) (b : Bool),
    (L.foldl Bool.xor b).toNat = (b.toNat + (L.map Bool.toNat).sum) % 2 := by
  intro L
  induction L with
  | nil =>
    intro b
    cases b <;> rfl
  | cons x t ih =>
    intro b
    simp only [List.foldl_cons, List.map_cons, List.sum_cons]
    rw [ih (Bool.xor b x)]
    have hbx : (Bool.xor b x).toNat = (b.toNat + x.toNat) % 2 := by
      cases b <;> cases x <;> rfl
    rw [hbx]
    omega

theorem if_bool_toNat (b : Bool) : (if b then (1 : ℕ) else 0) = b.toNat := by
  cases b <;> rfl

/-- The signature tensor entry is the parity of the cubic increment totals. -/
theorem sig_parity (M : BMatrix) (i j k : ℕ) :
    (find_signature_tensor M i j k).toNat
      = ((List.range M.r).map fun l => c3v M l i j k).sum % 2 := by
  rw [find_signature_tensor, foldl_xor_toNat, List.map_map]
  simp only [Bool.toNat_false, Nat.zero_add]
  have hfg : (Bool.toNat ∘ fun l => M.entry i l && M.entry j l && M.entry k l)
      = fun l => c3v M l i j k := by
    funext l
    simp only [Function.comp_apply, c3v, if_bool_toNat]
  rw [hfg]

theorem and_self_right (a b : Bool) : (a && b && b) = (a && b) := by
  cases a <;> cases b <;> rfl

theorem and_self_both (a : Bool) : (a && a && a) = a := by
  cases a <;> rfl

/-- Parity of the quadratic increment totals, in terms of the signature
tensor (the common factor 11 − n%8 excluded). -/
theorem sig_parity_quad (M : BMatrix) (i j : ℕ) :
    (find_signature_tensor M i j j).toNat
      = ((List.range M.r).map fun l =>
          (if M.entry i l && M.entry j l then (1 : ℕ) else 0)).sum % 2 := by
  rw [sig_parity]
  have hfg : (fun l => c3v M l i j j)
      = fun l => (if M.entry i l && M.entry j l then (1 : ℕ) else 0) := by
    funext l
    rw [c3v, and_self_right]
  rw [hfg]

theorem sig_parity_diag (M : BMatrix) (i : ℕ) :
    (find_signature_tensor M i i i).toNat
      = ((List.range M.r).map fun l =>
          (if M.entry i l then (1 : ℕ) else 0)).sum % 2 := by
  rw [sig_parity]
  have hfg : (fun l => c3v M l i i i)
      = fun l => (if M.entry i l then (1 : ℕ) else 0) := by
    funext l
    rw [c3v, and_self_both]
  rw [hfg]

theorem sum_map_mul_left (m : ℕ) (f : ℕ → ℕ) : ∀ (L : List ℕ),
    (L.map fun l => m * f l).sum = m * (L.map f).sum := by
  intro L
  induction L with
  | nil => simp
  | cons x t ih =>
    simp only [List.map_cons, List.sum_cons, ih]
    ring

/-- The accumulation loop's output is, entry by entry and mod 2, a function
of the row count and the signature tensor alone. -/
theorem poly_init_mod2 (a b : BMatrix) (hn : a.n = b.n)
    (hsig : ∀ i < a.n, ∀ j < a.n, ∀ k < a.n,
      find_signature_tensor a i j k = find_signature_tensor b i j k) :
    ∀ p, poly_init a p % 2 = poly_init b p % 2 := by
  rintro ⟨x, y, z⟩
  by_cases hin : x < a.n ∧ ((y = x ∧ z = x) ∨ (y < x ∧ z = y) ∨ (z < y ∧ y < x))
  · obtain ⟨hx, hcase⟩ := hin
    rcases hcase with ⟨h1, h2⟩ | ⟨h1, h2⟩ | ⟨h1, h2⟩
    · -- diagonal entry
      rw [h1, h2]
      rw [poly_init_diag a x hx, poly_init_diag b x (hn ▸ hx)]
      have hs := hsig x hx x hx x hx
      have ha := sig_parity_diag a x
      have hb := sig_parity_diag b x
      rw [Nat.mod_mod_of_dvd _ (by norm_num : (2:ℕ) ∣ 8),
        Nat.mod_mod_of_dvd _ (by norm_num : (2:ℕ) ∣ 8)]
      unfold c1v
      rw [sum_map_mul_left ((a.n % 8 + 6) * (a.n % 8 + 5)) _ (List.range a.r),
        sum_map_mul_left ((b.n % 8 + 6) * (b.n % 8 + 5)) _ (List.range b.r)]
      rw [Nat.mul_mod, Nat.mul_mod ((b.n % 8 + 6) * (b.n % 8 + 5))]
      rw [← ha, ← hb, hs, hn]
    · -- quadratic entry
      rw [h2]
      rw [poly_init_quad a x y h1 hx, poly_init_quad b x y h1 (hn ▸ hx)]
      have hs := hsig x hx y (by omega) y (by omega)
      have ha := sig_parity_quad a x y
      have hb := sig_parity_quad b x y
      rw [Nat.mod_mod_of_dvd _ (by norm_num : (2:ℕ) ∣ 8),
        Nat.mod_mod_of_dvd _ (by norm_num : (2:ℕ) ∣ 8)]
      unfold c2v
      rw [sum_map_mul_left (11 - a.n % 8) _ (List.range a.r),
        sum_map_mul_left (11 - b.n % 8) _ (List.range b.r)]
      rw [Nat.mul_mod, Nat.mul_mod (11 - b.n % 8)]
      rw [← ha, ← hb, hs, hn]
    · -- cubic entry
      rw [poly_init_cubic a x y z h1 h2 hx, poly_init_cubic b x y z h1 h2 (hn ▸ hx)]
      have hs := hsig x hx y (by omega) z (by omega)
      rw [Nat.mod_mod_of_dvd _ (by norm_num : (2:ℕ) ∣ 8),
        Nat.mod_mod_of_dvd _ (by norm_num : (2:ℕ) ∣ 8)]
      rw [← sig_parity a x y z, ← sig_parity b x y z, hs]
  · rw [poly_init_other a x y z hin, poly_init_other b x y z (by rw [← hn]; exact hin)]

theorem cubic_step_at_d1 (s : ℕ × ℕ × ℕ → ℕ) (i j k : ℕ) (hk : k < j) (hj : j < i) :
    (cubic_step s (i, j, k)) (i, i, i) % 2 = (s (i, i, i) + 7 * s (i, j, k)) % 2 := by
  by_cases h0 : s (i, j, k) = 0
  · simp only [cubic_step, if_pos h0]
    omega
  · simp only [cubic_step, if_neg h0]
    rw [upd_ne _ _ _ _ (by simp only [ne_eq, Prod.mk.injEq, not_and]; omega)]
    rw [upd_ne _ _ _ _ (by simp only [ne_eq, Prod.mk.injEq, not_and]; omega)]
    rw [upd_ne _ _ _ _ (by simp only [ne_eq, Prod.mk.injEq, not_and]; omega)]
    rw [upd_ne _ _ _ _ (by simp only [ne_eq, Prod.mk.injEq, not_and]; omega)]
    rw [upd_ne _ _ _ _ (by simp only [ne_eq, Prod.mk.injEq, not_and]; omega)]
    rw [upd_ne _ _ _ _ (by simp only [ne_eq, Prod.mk.injEq, not_and]; omega)]
    rw [upd_same]
    omega

theorem cubic_step_at_d2 (s : ℕ × ℕ × ℕ → ℕ) (i j k : ℕ) (hk : k < j) (hj : j < i) :
    (cubic_step s (i, j, k)) (j, j, j) % 2 = (s (j, j, j) + 7 * s (i, j, k)) % 2 := by
  by_cases h0 : s (i, j, k) = 0
  · simp only [cubic_step, if_pos h0]
    omega
  · simp only [cubic_step, if_neg h0]
    rw [upd_ne _ _ _ _ (by simp only [ne_eq, Prod.mk.injEq, not_and]; omega)]
    rw [upd_ne _ _ _ _ (by simp only [ne_eq, Prod.mk.injEq, not_and]; omega)]
    rw [upd_ne _ _ _ _ (by simp only [ne_eq, Prod.mk.injEq, not_and]; omega)]
    rw [upd_ne _ _ _ _ (by simp only [ne_eq, Prod.mk.injEq, not_and]; omega)]
    rw [upd_ne _ _ _ _ (by simp only [ne_eq, Prod.mk.injEq, not_and]; omega)]
    rw [upd_same]
    rw [upd_ne _ _ _ _ (by simp only [ne_eq, Prod.mk.injEq, not_and]; omega)]
    rw [upd_ne _ _ _ _ (by simp only [ne_eq, Prod.mk.injEq, not_and]; omega)]
    omega

theorem cubic_step_at_d3 (s : ℕ × ℕ × ℕ → ℕ) (i j k : ℕ) (hk : k < j) (hj : j < i) :
    (cubic_step s (i, j, k)) (k, k, k) % 2 = (s (k, k, k) + 7 * s (i, j, k)) % 2 := by
  by_cases h0 : s (i, j, k) = 0
  · simp only [cubic_step, if_pos h0]
    omega
  · simp only [cubic_step, if_neg h0]
    rw [upd_ne _ _ _ _ (by simp only [ne_eq, Prod.mk.injEq, not_and]; omega)]
    rw [upd_ne _ _ _ _ (by simp only [ne_eq, Prod.mk.injEq, not_and]; omega)]
    rw [upd_ne _ _ _ _ (by simp only [ne_eq, Prod.mk.injEq, not_and]; omega)]
    rw [upd_ne _ _ _ _ (by simp only [ne_eq, Prod.mk.injEq, not_and]; omega)]
    rw [upd_same]
    rw [upd_ne _ _ _ _ (by simp only [ne_eq, Prod.mk.injEq, not_and]; omega)]
    rw [upd_ne _ _ _ _ (by simp only [ne_eq, Prod.mk.injEq, not_and]; omega)]
    rw [upd_ne _ _ _ _ (by simp only [ne_eq, Prod.mk.injEq, not_and]; omega)]
    rw [upd_ne _ _ _ _ (by simp only [ne_eq, Prod.mk.injEq, not_and]; omega)]
    omega

theorem cubic_step_at_q1 (s : ℕ × ℕ × ℕ → ℕ) (i j k : ℕ) (hk : k < j) (hj : j < i) :
    (cubic_step s (i, j, k)) (i, j, j) % 2 = (s (i, j, j) + s (i, j, k)) % 2 := by
  by_cases h0 : s (i, j, k) = 0
  · simp only [cubic_step, if_pos h0]
    omega
  · simp only [cubic_step, if_neg h0]
    rw [upd_ne _ _ _ _ (by simp only [ne_eq, Prod.mk.injEq, not_and]; omega)]
    rw [upd_ne _ _ _ _ (by simp only [ne_eq, Prod.mk.injEq, not_and]; omega)]
    rw [upd_ne _ _ _ _ (by simp only [ne_eq, Prod.mk.injEq, not_and]; omega)]
    rw [upd_same]
    rw [upd_ne _ _ _ _ (by simp only [ne_eq, Prod.mk.injEq, not_and]; omega)]
    rw [upd_ne _ _ _ _ (by simp only [ne_eq, Prod.mk.injEq, not_and]; omega)]
    rw [upd_ne _ _ _ _ (by simp only [ne_eq, Prod.mk.injEq, not_and]; omega)]
    rw [upd_ne _ _ _ _ (by simp only [ne_eq, Prod.mk.injEq, not_and]; omega)]
    rw [upd_ne _ _ _ _ (by simp only [ne_eq, Prod.mk.injEq, not_and]; omega)]
    rw [upd_ne _ _ _ _ (by simp only [ne_eq, Prod.mk.injEq, not_and]; omega)]
    omega

theorem cubic_step_at_q2 (s : ℕ × ℕ × ℕ → ℕ) (i j k : ℕ) (hk : k < j) (hj : j < i) :
    (cubic_step s (i, j, k)) (i, k, k) % 2 = (s (i, k, k) + s (i, j, k)) % 2 := by
  by_cases h0 : s (i, j, k) = 0
  · simp only [cubic_step, if_pos h0]
    omega
  · simp only [cubic_step, if_neg h0]
    rw [upd_ne _ _ _ _ (by simp only [ne_eq, Prod.mk.injEq, not_and]; omega)]
    rw [upd_ne _ _ _ _ (by simp only [ne_eq, Prod.mk.injEq, not_and]; omega)]
    rw [upd_same]
    rw [upd_ne _ _ _ _ (by simp only [ne_eq, Prod.mk.injEq, not_and]; omega)]
    rw [upd_ne _ _ _ _ (by simp only [ne_eq, Prod.mk.injEq, not_and]; omega)]
    rw [upd_ne _ _ _ _ (by simp only [ne_eq, Prod.mk.injEq, not_and]; omega)]
    rw [upd_ne _ _ _ _ (by simp only [ne_eq, Prod.mk.injEq, not_and]; omega)]
    rw [upd_ne _ _ _ _ (by simp only [ne_eq, Prod.mk.injEq, not_and]; omega)]
    rw [upd_ne _ _ _ _ (by simp only [ne_eq, Prod.mk.injEq, not_and]; omega)]
    rw [upd_ne _ _ _ _ (by simp only [ne_eq, Prod.mk.injEq, not_and]; omega)]
    rw [upd_ne _ _ _ _ (by simp only [ne_eq, Prod.mk.injEq, not_and]; omega)]
    omega

theorem cubic_step_at_q3 (s : ℕ × ℕ × ℕ → ℕ) (i j k : ℕ) (hk : k < j) (hj : j < i) :
    (cubic_step s (i, j, k)) (j, k, k) % 2 = (s (j, k, k) + s (i, j, k)) % 2 := by
  by_cases h0 : s (i, j, k) = 0
  · simp only [cubic_step, if_pos h0]
    omega
  · simp only [cubic_step, if_neg h0]
    rw [upd_ne _ _ _ _ (by simp only [ne_eq, Prod.mk.injEq, not_and]; omega)]
    rw [upd_same]
    rw [upd_ne _ _ _ _ (by simp only [ne_eq, Prod.mk.injEq, not_and]; omega)]
    rw [upd_ne _ _ _ _ (by simp only [ne_eq, Prod.mk.injEq, not_and]; omega)]
    rw [upd_ne _ _ _ _ (by simp only [ne_eq, Prod.mk.injEq, not_and]; omega)]
    rw [upd_ne _ _ _ _ (by simp only [ne_eq, Prod.mk.injEq, not_and]; omega)]
    rw [upd_ne _ _ _ _ (by simp only [ne_eq, Prod.mk.injEq, not_and]; omega)]
    rw [upd_ne _ _ _ _ (by simp only [ne_eq, Prod.mk.injEq, not_and]; omega)]
    rw [upd_ne _ _ _ _ (by simp only [ne_eq, Prod.mk.injEq, not_and]; omega)]
    rw [upd_ne _ _ _ _ (by simp only [ne_eq, Prod.mk.injEq, not_and]; omega)]
    rw [upd_ne _ _ _ _ (by simp only [ne_eq, Prod.mk.injEq, not_and]; omega)]
    rw [upd_ne _ _ _ _ (by simp only [ne_eq, Prod.mk.injEq, not_and]; omega)]
    omega

theorem cubic_step_pres_other (s : ℕ × ℕ × ℕ → ℕ) (i j k : ℕ) (p : ℕ × ℕ × ℕ)
    (h1 : p ≠ (i, j, k)) (h2 : p ≠ (i, i, i)) (h3 : p ≠ (j, j, j)) (h4 : p ≠ (k, k, k))
    (h5 : p ≠ (i, j, j)) (h6 : p ≠ (i, k, k)) (h7 : p ≠ (j, k, k)) :
    (cubic_step s (i, j, k)) p = s p := by
  by_cases h0 : s (i, j, k) = 0
  · simp only [cubic_step, if_pos h0]
  · simp only [cubic_step, if_neg h0]
    rw [upd_ne _ _ _ _ h1, upd_ne _ _ _ _ h7, upd_ne _ _ _ _ h6, upd_ne _ _ _ _ h5,
      upd_ne _ _ _ _ h4, upd_ne _ _ _ _ h3, upd_ne _ _ _ _ h2]

theorem quad_step_at_d1 (s : ℕ × ℕ × ℕ → ℕ) (i j : ℕ) (hj : j < i) :
    (quad_step s (i, j)) (i, i, i) % 2 = (s (i, i, i) + s (i, j, j)) % 2 := by
  by_cases h0 : s (i, j, j) = 0
  · simp only [quad_step, if_pos h0]
    omega
  · simp only [quad_step, if_neg h0]
    rw [upd_ne _ _ _ _ (by simp only [ne_eq, Prod.mk.injEq, not_and]; omega)]
    rw [upd_ne _ _ _ _ (by simp only [ne_eq, Prod.mk.injEq, not_and]; omega)]
    rw [upd_same]
    omega

theorem quad_step_at_d2 (s : ℕ × ℕ × ℕ → ℕ) (i j : ℕ) (hj : j < i) :
    (quad_step s (i, j)) (j, j, j) % 2 = (s (j, j, j) + s (i, j, j)) % 2 := by
  by_cases h0 : s (i, j, j) = 0
  · simp only [quad_step, if_pos h0]
    omega
  · simp only [quad_step, if_neg h0]
    rw [upd_ne _ _ _ _ (by simp only [ne_eq, Prod.mk.injEq, not_and]; omega)]
    rw [upd_same]
    rw [upd_ne _ _ _ _ (by simp only [ne_eq, Prod.mk.injEq, not_and]; omega)]
    rw [upd_ne _ _ _ _ (by simp only [ne_eq, Prod.mk.injEq, not_and]; omega)]
    omega

theorem quad_step_at_own (s : ℕ × ℕ × ℕ → ℕ) (i j : ℕ) (hj : j < i) :
    (quad_step s (i, j)) (i, j, j) % 2 = (6 * s (i, j, j)) % 2 := by
  by_cases h0 : s (i, j, j) = 0
  · simp only [quad_step, if_pos h0]
    omega
  · simp only [quad_step, if_neg h0]
    rw [upd_same]
    rw [upd_ne _ _ _ _ (by simp only [ne_eq, Prod.mk.injEq, not_and]; omega)]
    rw [upd_ne _ _ _ _ (by simp only [ne_eq, Prod.mk.injEq, not_and]; omega)]
    omega

theorem quad_step_pres_other (s : ℕ × ℕ × ℕ → ℕ) (i j : ℕ) (p : ℕ × ℕ × ℕ)
    (h1 : p ≠ (i, j, j)) (h2 : p ≠ (i, i, i)) (h3 : p ≠ (j, j, j)) :
    (quad_step s (i, j)) p = s p := by
  by_cases h0 : s (i, j, j) = 0
  · simp only [quad_step, if_pos h0]
  · simp only [quad_step, if_neg h0]
    rw [upd_ne _ _ _ _ h1, upd_ne _ _ _ _ h3, upd_ne _ _ _ _ h2]

theorem cubic_step_mod2 (i j k : ℕ) (hk : k < j) (hj : j < i) (s t : ℕ × ℕ × ℕ → ℕ)
    (hrel : ∀ p, s p % 2 = t p % 2) (p : ℕ × ℕ × ℕ) :
    (cubic_step s (i, j, k)) p % 2 = (cubic_step t (i, j, k)) p % 2 := by
  by_cases h1 : p = (i, j, k)
  · subst h1
    have hs := cubic_step_own s i j k
    have ht := cubic_step_own t i j k
    omega
  by_cases h2 : p = (i, i, i)
  · subst h2
    rw [cubic_step_at_d1 s i j k hk hj, cubic_step_at_d1 t i j k hk hj]
    have e1 := hrel (i, i, i)
    have e2 := hrel (i, j, k)
    omega
  by_cases h3 : p = (j, j, j)
  · subst h3
    rw [cubic_step_at_d2 s i j k hk hj, cubic_step_at_d2 t i j k hk hj]
    have e1 := hrel (j, j, j)
    have e2 := hrel (i, j, k)
    omega
  by_cases h4 : p = (k, k, k)
  · subst h4
    rw [cubic_step_at_d3 s i j k hk hj, cubic_step_at_d3 t i j k hk hj]
    have e1 := hrel (k, k, k)
    have e2 := hrel (i, j, k)
    omega
  by_cases h5 : p = (i, j, j)
  · subst h5
    rw [cubic_step_at_q1 s i j k hk hj, cubic_step_at_q1 t i j k hk hj]
    have e1 := hrel (i, j, j)
    have e2 := hrel (i, j, k)
    omega
  by_cases h6 : p = (i, k, k)
  · subst h6
    rw [cubic_step_at_q2 s i j k hk hj, cubic_step_at_q2 t i j k hk hj]
    have e1 := hrel (i, k, k)
    have e2 := hrel (i, j, k)
    omega
  by_cases h7 : p = (j, k, k)
  · subst h7
    rw [cubic_step_at_q3 s i j k hk hj, cubic_step_at_q3 t i j k hk hj]
    have e1 := hrel (j, k, k)
    have e2 := hrel (i, j, k)
    omega
  rw [cubic_step_pres_other s i j k p h1 h2 h3 h4 h5 h6 h7,
    cubic_step_pres_other t i j k p h1 h2 h3 h4 h5 h6 h7]
  exact hrel p

theorem quad_step_mod2 (i j : ℕ) (hj : j < i) (s t : ℕ × ℕ × ℕ → ℕ)
    (hrel : ∀ p, s p % 2 = t p % 2) (p : ℕ × ℕ × ℕ) :
    (quad_step s (i, j)) p % 2 = (quad_step t (i, j)) p % 2 := by
  by_cases h1 : p = (i, j, j)
  · subst h1
    rw [quad_step_at_own s i j hj, quad_step_at_own t i j hj]
    have e1 := hrel (i, j, j)
    omega
  by_cases h2 : p = (i, i, i)
  · subst h2
    rw [quad_step_at_d1 s i j hj, quad_step_at_d1 t i j hj]
    have e1 := hrel (i, i, i)
    have e2 := hrel (i, j, j)
    omega
  by_cases h3 : p = (j, j, j)
  · subst h3
    rw [quad_step_at_d2 s i j hj, quad_step_at_d2 t i j hj]
    have e1 := hrel (j, j, j)
    have e2 := hrel (i, j, j)
    omega
  rw [quad_step_pres_other s i j p h1 h2 h3, quad_step_pres_other t i j p h1 h2 h3]
  exact hrel p

theorem foldl_mod2_rel {α : Type} (step : (ℕ × ℕ × ℕ → ℕ) → α → ℕ × ℕ × ℕ → ℕ)
    (L : List α)
    (hstep : ∀ s t q, q ∈ L → (∀ p, s p % 2 = t p % 2) →
      ∀ p, (step s q) p % 2 = (step t q) p % 2) :
    ∀ s t, (∀ p, s p % 2 = t p % 2) →
      ∀ p, (L.foldl step s) p % 2 = (L.foldl step t) p % 2 := by
  induction L with
  | nil => intro s t h p; exact h p
  | cons x m ih =>
    intro s t h p
    simp only [List.foldl_cons]
    exact ih (fun s t q hq => hstep s t q (List.mem_cons_of_mem _ hq)) (step s x) (step t x)
      (hstep s t x (List.mem_cons_self _ _) h) p

/-- Under equal row counts and equal signature tensors, the two phase
polynomials agree mod 2, entry by entry. -/
theorem find_phase_polynomial_mod2 (a b : BMatrix) (hn : a.n = b.n)
    (hsig : ∀ i < a.n, ∀ j < a.n, ∀ k < a.n,
      find_signature_tensor a i j k = find_signature_tensor b i j k) :
    ∀ p, find_phase_polynomial a p % 2 = find_phase_polynomial b p % 2 := by
  intro p
  unfold find_phase_polynomial
  rw [← hn]
  refine foldl_mod2_rel quad_step (quad_pairs a.n) (fun s t q hq hrel p => ?_) _ _
    (fun p => ?_) p
  · obtain ⟨x, y⟩ := q
    obtain ⟨hy, _⟩ := (quad_pairs_mem a.n x y).mp hq
    exact quad_step_mod2 x y hy s t hrel p
  · refine foldl_mod2_rel cubic_step (cubic_triples a.n) (fun s t q hq hrel p => ?_)
      _ _ (poly_init_mod2 a b hn hsig) p
    obtain ⟨x, y, z⟩ := q
    obtain ⟨hz, hy, _⟩ := (cubic_triples_mem a.n x y z).mp hq
    exact cubic_step_mod2 x y z hz hy s t hrel p

theorem upd_mod_bnd (s : ℕ × ℕ × ℕ → ℕ) (p : ℕ × ℕ × ℕ) (x : ℕ)
    (h : ∀ q, s q < 8) : ∀ q, (upd s p (x % 8)) q < 8 := by
  intro q
  by_cases hq : q = p
  · subst hq
    rw [upd_same]
    omega
  · rw [upd_ne _ _ _ _ hq]
    exact h q

theorem add_upd_bnd (s : ℕ × ℕ × ℕ → ℕ) (p : ℕ × ℕ × ℕ) (x : ℕ)
    (h : ∀ q, s q < 8) : ∀ q, (add_upd s p x) q < 8 :=
  upd_mod_bnd s p (s p + x) h

theorem foldl_bnd {α : Type} (step : (ℕ × ℕ × ℕ → ℕ) → α → ℕ × ℕ × ℕ → ℕ)
    (L : List α)
    (hstep : ∀ s q, (∀ p, s p < 8) → ∀ p, (step s q) p < 8) :
    ∀ s, (∀ p, s p < 8) → ∀ p, (L.foldl step s) p < 8 := by
  induction L with
  | nil => intro s h p; exact h p
  | cons x m ih =>
    intro s h p
    simp only [List.foldl_cons]
    exact ih (step s x) (hstep s x h) p

theorem cubic_step_bnd (s : ℕ × ℕ × ℕ → ℕ) (q : ℕ × ℕ × ℕ)
    (h : ∀ p, s p < 8) : ∀ p, (cubic_step s q) p < 8 := by
  obtain ⟨i, j, k⟩ := q
  by_cases h0 : s (i, j, k) = 0
  · simp only [cubic_step, if_pos h0]
    exact h
  · simp only [cubic_step, if_neg h0]
    exact upd_mod_bnd _ _ _ (upd_mod_bnd _ _ _ (upd_mod_bnd _ _ _ (upd_mod_bnd _ _ _
      (upd_mod_bnd _ _ _ (upd_mod_bnd _ _ _ (upd_mod_bnd _ _ _ h))))))

theorem quad_step_bnd (s : ℕ × ℕ × ℕ → ℕ) (q : ℕ × ℕ)
    (h : ∀ p, s p < 8) : ∀ p, (quad_step s q) p < 8 := by
  obtain ⟨i, j⟩ := q
  by_cases h0 : s (i, j, j) = 0
  · simp only [quad_step, if_pos h0]
    exact h
  · simp only [quad_step, if_neg h0]
    exact upd_mod_bnd _ _ _ (upd_mod_bnd _ _ _ (upd_mod_bnd _ _ _ h))

theorem poly_init_bnd (M : BMatrix) : ∀ p, poly_init M p < 8 := by
  rw [poly_init]
  refine foldl_bnd _ _ (fun s l h => ?_) _ (fun p => by omega)
  rw [poly_body]
  refine foldl_bnd _ _ (fun s i h => ?_) _ h
  rw [poly_istep]
  refine add_upd_bnd _ _ _ ?_
  refine foldl_bnd _ _ (fun s j h => ?_) _ h
  rw [poly_jstep]
  refine add_upd_bnd _ _ _ ?_
  refine foldl_bnd _ _ (fun s k h => ?_) _ h
  rw [poly_kstep]
  exact add_upd_bnd _ _ _ h

theorem find_phase_polynomial_bnd (M : BMatrix) :
    ∀ p, find_phase_polynomial M p < 8 := by
  unfold find_phase_polynomial
  refine foldl_bnd _ _ (fun s q h => quad_step_bnd s q h) _ ?_
  exact foldl_bnd _ _ (fun s q h => cubic_step_bnd s q h) _ (poly_init_bnd M)

theorem mem_if_singleton (c : Prop) [Decidable c] (x g : Gate) :
    (g ∈ if c then [x] else []) ↔ c ∧ g = x := by
  split_ifs with h
  · simp [h]
  · simp [h]

/-- C1: for boolean synthesis matrices `a` and `b` with the same number of
rows and equal signature tensors, and a qubit map of matching length,
`clifford_correction a b map` consists only of Clifford gates, and a gate
is in it exactly when it is `CZ (map[i]) (map[j])` for a quadratic entry
`(i, j, j)` (with `j < i < n`) of the pointwise mod-8 difference of the two
phase polynomials equal to 4, or `Phase d (map[i])` for a non-zero diagonal
entry `d` at `(i, i, i)` with `i < n`. -/
theorem claim_C1 (a b : BMatrix) (map : List ℕ)
    (hn : a.n = b.n)
    (hmap : map.length = a.n)
    (hsig : ∀ i < a.n, ∀ j < a.n, ∀ k < a.n,
      find_signature_tensor a i j k = find_signature_tensor b i j k) :
    (∀ g ∈ (clifford_correction a b map).gates, g.is_clifford = true) ∧
    (∀ g, g ∈ (clifford_correction a b map).gates ↔
      ((∃ i, i < a.n ∧ ∃ j, j < i ∧
        (find_phase_polynomial b (i, j, j) + 8 - find_phase_polynomial a (i, j, j)) % 8 = 4 ∧
        g = Gate.CZ (map.getD i 0) (map.getD j 0)) ∨
       (∃ i, i < a.n ∧
        (find_phase_polynomial b (i, i, i) + 8 - find_phase_polynomial a (i, i, i)) % 8 ≠ 0 ∧
        g = Gate.Phase
          ((find_phase_polynomial b (i, i, i) + 8 - find_phase_polynomial a (i, i, i)) % 8)
          (map.getD i 0)))) := by
  have hmod2 := find_phase_polynomial_mod2 a b hn hsig
  have hbnda := find_phase_polynomial_bnd a
  have hmem : ∀ g, g ∈ (clifford_correction a b map).gates ↔
      ((∃ i, i < a.n ∧ ∃ j, j < i ∧
        (find_phase_polynomial b (i, j, j) + 8 - find_phase_polynomial a (i, j, j)) % 8 = 4 ∧
        g = Gate.CZ (map.getD i 0) (map.getD j 0)) ∨
       (∃ i, i < a.n ∧
        (find_phase_polynomial b (i, i, i) + 8 - find_phase_polynomial a (i, i, i)) % 8 ≠ 0 ∧
        g = Gate.Phase
          ((find_phase_polynomial b (i, i, i) + 8 - find_phase_polynomial a (i, i, i)) % 8)
          (map.getD i 0))) := by
    intro g
    simp only [clifford_correction]
    rw [mem_flatten_map_range]
    constructor
    · rintro ⟨i, hi, hg⟩
      rw [List.mem_append] at hg
      rcases hg with hcz | hph
      · rw [mem_flatten_map_range] at hcz
        obtain ⟨j, hj, hgj⟩ := hcz
        rw [mem_if_singleton] at hgj
        exact Or.inl ⟨i, hi, j, hj, hgj.1, hgj.2⟩
      · rw [mem_if_singleton] at hph
        exact Or.inr ⟨i, hi, hph.1, hph.2⟩
    · rintro (⟨i, hi, j, hj, h4, rfl⟩ | ⟨i, hi, hne, rfl⟩)
      · refine ⟨i, hi, List.mem_append_left _ ?_⟩
        exact (mem_flatten_map_range _ i _).mpr ⟨j, hj, (mem_if_singleton _ _ _).mpr ⟨h4, rfl⟩⟩
      · exact ⟨i, hi, List.mem_append_right _ ((mem_if_singleton _ _ _).mpr ⟨hne, rfl⟩)⟩
  refine ⟨fun g hg => ?_, hmem⟩
  rcases (hmem g).mp hg with ⟨i, _, j, _, _, rfl⟩ | ⟨i, _, _, rfl⟩
  · rfl
  · simp only [Gate.is_clifford, phase_is_clifford, beq_iff_eq]
    have e1 := hmod2 (i, i, i)
    have e2 := hbnda (i, i, i)
    omega

theorem claim_C1_witness :
    Gate.Phase 4 5 ∈ (clifford_correction one_t_mat three_t_mat [5]).gates ∧
    ∀ g ∈ (clifford_correction one_t_mat three_t_mat [5]).gates, g.is_clifford = true := by
  have h := claim_C1 one_t_mat three_t_mat [5] rfl rfl (by decide)
  refine ⟨?_, h.1⟩
  exact (h.2 (Gate.Phase 4 5)).mpr (Or.inr ⟨0, by decide, by decide, by decide⟩)

end C2T
